import Mathlib

/-!
# Coded-TeraSort worker (`Worker.cc`): partition trie, map, pack, shuffle, unpack, reduce

A shallow embedding of `Worker::buildTrie`, `Worker::execMap`, the shuffle and unpack
loops of `Worker::run`, `Worker::execReduce` and `Worker::outputLocalList`.

Conventions of the embedding:
* an `unsigned char` is a `Fin 256`; a buffer (`unsigned char*`) is the list of its bytes;
* a byte read past the end of a buffer reads as `0` and a write past the end of the
  scratch buffer is dropped; the source does neither when `maxDepth <= keySize` and every
  key, record and boundary key has at least `keySize` bytes;
* `std::vector::at` on the boundary list is read with a default, every index the
  source passes being below `upper`, which callers keep at most the list's size;
* the 32-bit `int` that holds the size of the shard in `execMap` is modelled with its
  wrap-around; the other counters (`unsigned long`, `unsigned long long`) are natural
  numbers;
* the mutable scratch buffer `prefix` of `buildTrie` is threaded through explicitly:
  the function returns the buffer as the call leaves it.
-/

namespace TeraSort

/-- An `unsigned char`. -/
abbrev Byte := Fin 256

/-- A buffer of bytes (`unsigned char*`): a record, a key or a boundary key. -/
abbrev Line := List Byte

/-- The `LineList` of the source: an ordered sequence of records. -/
abbrev LineList := List Line

/-- The `PartitionList` of the source: the ordered list of boundary keys. -/
abbrev PartitionList := List Line

/-- The byte at offset `i` of a buffer (`key[i]`). -/
def byteAt (key : Line) (i : Nat) : Byte := key.getD i 0

/-- Modelled from the spec: the loop of `cmpKey` (`Utility.h`, not among the sources),
with `n` bytes left to compare from offset `i` on. -/
def cmpKeyFrom (keyA keyB : Line) : Nat → Nat → Bool
  | 0, _ => false
  | n + 1, i =>
    if byteAt keyA i < byteAt keyB i then true
    else if byteAt keyB i < byteAt keyA i then false
    else cmpKeyFrom keyA keyB n (i + 1)

/-- Modelled from the spec: `cmpKey` of `Utility.h`, which is not among the sources.
The strict lexicographic less-than over the first `size` bytes, bytes compared unsigned
("lexicographic byte comparison over the first `keySize` bytes, unsigned byte semantics"). -/
def cmpKey (keyA keyB : Line) (size : Nat) : Bool := cmpKeyFrom keyA keyB size 0

/-- Modelled from the spec: the trie node of `Trie.h`, which is not among the sources.
A tagged variant: `inner` (depth, children indexed by byte value, filled by `setChild`) or
`leaf` (depth, a contiguous range `[lower, upper)` of the boundary list). -/
inductive TrieNode where
  | inner (level : Nat) (child : List TrieNode)
  | leaf (level : Nat) (lower upper : Nat)

mutual
/-- Modelled from the spec: the descent of `findPartition`, one key byte per inner level
until a leaf is reached; returns the leaf's depth and range `(level, lower, upper)`, and
nothing when the child to follow was never set. -/
def TrieNode.leafOf : TrieNode → Line → Option (Nat × Nat × Nat)
  | .leaf level lower upper, _ => some (level, lower, upper)
  | .inner level child, key => leafOfChild child (byteAt key level).val key
/-- Modelled from the spec: the descent of `findPartition` continued in the child of
index `n`. -/
def leafOfChild : List TrieNode → Nat → Line → Option (Nat × Nat × Nat)
  | [], _, _ => none
  | c :: _, 0, key => c.leafOf key
  | _ :: cs, n + 1, key => leafOfChild cs n key
end

/-- Modelled from the spec: how a leaf resolves a key to a partition id. The partition
ranges are `(-inf, b0], (b0, b1], ..., (b_{N-2}, +inf)`: the first boundary of the range
`[i, upper)` that is not below the key gives the id, and `upper` when there is none.
`fuel` bounds the scan (`upper - i` is enough). -/
def leafScan (partitionList : PartitionList) (keySize : Nat) (key : Line) (upper : Nat) :
    Nat → Nat → Nat
  | 0, _ => upper
  | fuel + 1, i =>
    if i < upper then
      if cmpKey (partitionList.getD i []) key keySize then
        leafScan partitionList keySize key upper fuel (i + 1)
      else i
    else upper

/-- Modelled from the spec: `TrieNode::findPartition` of `Trie.h`, which is not among the
sources: descend to the leaf, which resolves the key among the boundaries of its range. -/
def TrieNode.findPartition (partitionList : PartitionList) (keySize : Nat) (t : TrieNode)
    (key : Line) : Option Nat :=
  match t.leafOf key with
  | some (_, lower, upper) =>
    some (leafScan partitionList keySize key upper (upper - lower) lower)
  | none => none

/-- The `while (curr < upper)` loop of `buildTrie`: advance `curr` until the scratch
prefix is below the boundary key at `curr` on the first `n` bytes. `fuel` bounds the
number of iterations (`upper - curr` is enough). -/
def scanKeys (partitionList : PartitionList) (pre : Line) (n upper : Nat) : Nat → Nat → Nat
  | 0, curr => curr
  | fuel + 1, curr =>
    if curr < upper then
      if cmpKey pre (partitionList.getD curr []) n then curr
      else scanKeys partitionList pre n upper fuel (curr + 1)
    else curr

/-- The `for (unsigned char ch = 0; ch < 255; ch++)` loop of `buildTrie`, with `n`
iterations left, the next byte value `ch`, the running index `curr` and the scratch
buffer; `build lower upper prefix` is the recursive call one level down. Returns the
children built, in byte order, the final `curr` and the scratch buffer. -/
def buildChildren (build : Nat → Nat → Line → TrieNode × Line)
    (partitionList : PartitionList) (upper prefixSize : Nat) :
    Nat → Nat → Nat → Line → List TrieNode × Nat × Line
  | 0, _, curr, pre => ([], curr, pre)
  | n + 1, ch, curr, pre =>
    match build curr
        (scanKeys partitionList (pre.set prefixSize (Fin.ofNat ch)) (prefixSize + 1) upper
          (upper - curr) curr)
        (pre.set prefixSize (Fin.ofNat ch)) with
    | (t, pre2) =>
      match buildChildren build partitionList upper prefixSize n (ch + 1)
          (scanKeys partitionList (pre.set prefixSize (Fin.ofNat ch)) (prefixSize + 1) upper
            (upper - curr) curr) pre2 with
      | (ts, curr2, pre3) => (t :: ts, curr2, pre3)

/-- The number of iterations of the loop `for (unsigned char ch = 0; ch < 255; ch++)`. -/
@[irreducible] def loopBytes : Nat := 255

/-- The recursion of `buildTrie`, on `fuel` levels left (`maxDepth - prefixSize`). -/
def buildTrieAux (partitionList : PartitionList) (maxDepth : Nat) :
    Nat → Nat → Nat → Nat → Line → TrieNode × Line
  | 0, prefixSize, lower, upper, pre => (.leaf prefixSize lower upper, pre)
  | fuel + 1, prefixSize, lower, upper, pre =>
    if prefixSize ≥ maxDepth ∨ lower = upper then (.leaf prefixSize lower upper, pre)
    else
      match buildChildren (buildTrieAux partitionList maxDepth fuel (prefixSize + 1))
          partitionList upper prefixSize loopBytes 0 lower pre with
      | (ts, curr, pre1) =>
        match buildTrieAux partitionList maxDepth fuel (prefixSize + 1) curr upper
            (pre1.set prefixSize 255) with
        | (t, pre2) => (.inner prefixSize (ts ++ [t]), pre2)

/-- `Worker::buildTrie`: the trie over the boundaries of index `[lower, upper)`, and the
scratch buffer as the call leaves it. The recursion goes one level down until
`prefixSize >= maxDepth`, so `maxDepth - prefixSize` levels are enough. -/
def buildTrie (partitionList : PartitionList) (lower upper : Nat) (pre : Line)
    (prefixSize maxDepth : Nat) : TrieNode × Line :=
  buildTrieAux partitionList maxDepth (maxDepth - prefixSize) prefixSize lower upper pre

/-! ## The map phase: `Worker::execMap` -/

/-- Modelled from the spec: the `Configuration` of `Configuration.h`, which is not among
the sources: `numReducer` (number of workers and partitions), `keySize` (bytes of the
record used for partitioning and sorting) and `lineSize` (record width in bytes). The
path templates are left out: the files are passed explicitly. -/
structure Configuration where
  numReducer : Nat
  keySize : Nat
  lineSize : Nat

/-- Modelled from the spec: the `TxData` of `Worker.h`, which is not among the sources: a
count `numLine` and a contiguous byte buffer `data`. -/
structure TxData where
  data : List Byte
  numLine : Nat
  deriving DecidableEq

/-- The value an `int` holds after `int fileSize = inputFile.tellg()` for a file of `n`
bytes: the low 32 bits of `n`, read as a signed number. -/
def toInt32 (n : Nat) : Int :=
  if n % 4294967296 < 2147483648 then ((n % 4294967296 : Nat) : Int)
  else ((n % 4294967296 : Nat) : Int) - 4294967296

/-- The conversion of an `int` to `unsigned long` (64 bits) in `fileSize / lineSize`. -/
def toUnsignedLong (z : Int) : Nat := (z % 18446744073709551616).toNat

/-- The `numLine` of `execMap` for a shard of `fileBytes` bytes:
`int fileSize = inputFile.tellg(); unsigned long numLine = fileSize / lineSize`. -/
def shardNumLine (fileBytes lineSize : Nat) : Nat :=
  toUnsignedLong (toInt32 fileBytes) / lineSize

/-- The record `inputFile.read` leaves in a fresh buffer of `lineSize` bytes when the
stream stands at offset `pos`. A byte the file does not hold is left as the buffer had
it, which is read as `0` here. -/
def readLine (file : List Byte) (lineSize pos : Nat) : Line :=
  (List.range lineSize).map (fun j => file.getD (pos + j) 0)

/-- The records the map loop reads, in order: `numLine` reads of `lineSize` bytes. -/
def shardLines (file : List Byte) (lineSize numLine : Nat) : LineList :=
  (List.range numLine).map (fun i => readLine file lineSize (i * lineSize))

/-- The step `partitionCollection.at(wid)->push_back(buff)`: nothing when the collection
has no bucket `wid` (`at` throws). -/
def pushBack : List LineList → Nat → Line → Option (List LineList)
  | [], _, _ => none
  | b :: bs, 0, x => some ((b ++ [x]) :: bs)
  | b :: bs, wid + 1, x =>
    match pushBack bs wid x with
    | some r => some (b :: r)
    | none => none

/-- The map loop of `execMap` over the records read: each record goes to the bucket
`findPartition` names. Nothing when a lookup or `at` fails. -/
def classify (find : Line → Option Nat) : LineList → List LineList → Option (List LineList)
  | [], pc => some pc
  | r :: rs, pc =>
    match find r with
    | none => none
    | some wid =>
      match pushBack pc wid r with
      | none => none
      | some pc2 => classify find rs pc2

/-- The first half of `execMap`, up to the end of the map loop: the trie and the
`numReducer` buckets. `file` is the content of the shard, `none` when it cannot be opened
(`assert(false)`); `scratch` is what the uninitialised buffer `prefix` holds. -/
def execMapClassify (conf : Configuration) (partitionList : PartitionList) (scratch : Line)
    (file : Option (List Byte)) : Option (TrieNode × List LineList) :=
  match file with
  | none => none
  | some bytes =>
    match classify
        ((buildTrie partitionList 0 partitionList.length scratch 0 2).1.findPartition
          partitionList conf.keySize)
        (shardLines bytes conf.lineSize (shardNumLine bytes.length conf.lineSize))
        (List.replicate conf.numReducer []) with
    | none => none
    | some pc => some ((buildTrie partitionList 0 partitionList.length scratch 0 2).1, pc)

/-- The inner loop of the pack phase: `memcpy(data + j, *lit, lineSize)` for each record
of the bucket in turn, `j` advancing by `lineSize`. -/
def packLines (lineSize : Nat) : LineList → List Byte
  | [] => []
  | r :: rs => r.take lineSize ++ packLines lineSize rs

/-- The transfer buffer of one bucket: `numLine` is the bucket's size and `data` the
`lineSize` bytes of each record, in order. -/
def packBucket (lineSize : Nat) (bucket : LineList) : TxData :=
  { data := packLines lineSize bucket, numLine := bucket.length }

/-- The pack loop of `execMap` from partition id `i` on: `partitionTxData`, where the
bucket `self` (`rank - 1`) is skipped and leaves no entry. -/
def packFrom (lineSize self : Nat) : Nat → List LineList → List (Option TxData)
  | _, [] => []
  | i, b :: bs =>
    (if i = self then none else some (packBucket lineSize b)) ::
      packFrom lineSize self (i + 1) bs

/-- The buckets after the pack loop: the bucket `self` is kept, the others are released
(`delete partitionCollection[i]`). -/
def releaseFrom (self : Nat) : Nat → List LineList → List (Option LineList)
  | _, [] => []
  | i, b :: bs => (if i = self then some b else none) :: releaseFrom self (i + 1) bs

/-- The members of `Worker` that `execMap` sets: the trie, the buckets and the outbound
transfer buffers, the latter two indexed by partition id. -/
structure MapState where
  trie : TrieNode
  partitionCollection : List (Option LineList)
  partitionTxData : List (Option TxData)

/-- `Worker::execMap` on the worker `rank` (`rank >= 1`): read and classify the shard,
then pack every bucket but the worker's own. Nothing when the run aborts. -/
def execMap (conf : Configuration) (rank : Nat) (partitionList : PartitionList)
    (scratch : Line) (file : Option (List Byte)) : Option MapState :=
  match execMapClassify conf partitionList scratch file with
  | none => none
  | some (trie, pc) =>
    some { trie := trie
           partitionCollection := releaseFrom (rank - 1) 0 pc
           partitionTxData := packFrom conf.lineSize (rank - 1) 0 pc }

/-! ## The shuffle and unpack phases of `Worker::run` -/

/-- What a worker does on the transport during the shuffle. -/
inductive Event where
  | barrier
  | sendNumLine (dest : Nat) (numLine : Nat)
  | sendData (dest : Nat) (data : List Byte)
  | sendStat
  | recvNumLine (src : Nat)
  | recvData (src : Nat)
  deriving DecidableEq

/-- The entry `partitionTxData[j - 1]`, the transfer buffer addressed to the worker `j`. -/
def txFor (tx : List (Option TxData)) (j : Nat) : TxData :=
  (tx.getD (j - 1) none).getD { data := [], numLine := 0 }

/-- What the two sends of a transfer buffer carry: the count, and the first
`numLine * lineSize` bytes of the buffer. -/
def transfer (lineSize : Nat) (tx : TxData) : TxData :=
  { data := tx.data.take (tx.numLine * lineSize), numLine := tx.numLine }

/-- The loop `for (j = 1; j <= numReducer; j++)` of the sender in round `i`, with `n`
iterations left from `j` on: the count, then the payload, to every worker but `i`. -/
def sendLoop (lineSize i : Nat) (tx : List (Option TxData)) : Nat → Nat → List Event
  | 0, _ => []
  | n + 1, j =>
    if j = i then sendLoop lineSize i tx n (j + 1)
    else Event.sendNumLine j (transfer lineSize (txFor tx j)).numLine ::
      Event.sendData j (transfer lineSize (txFor tx j)).data ::
      sendLoop lineSize i tx n (j + 1)

/-- Round `i` of the shuffle on the worker `rank`: the sender passes a barrier, sends,
passes a barrier and reports two timings to the master; a receiver passes a barrier,
receives the count and the payload from `i`, and passes a barrier. -/
def shuffleRound (lineSize numReducer rank : Nat) (tx : List (Option TxData)) (i : Nat) :
    List Event :=
  if i = rank then
    Event.barrier ::
      (sendLoop lineSize i tx numReducer 1 ++ [Event.barrier, Event.sendStat, Event.sendStat])
  else [Event.barrier, Event.recvNumLine i, Event.recvData i, Event.barrier]

/-- The shuffle loop `for (i = 1; i <= numReducer; i++)` on the worker `rank`: the events
of each round, in order. The counters are natural numbers: a world of MPI ranks is far
below the range of `unsigned int`. -/
def shuffleRounds (lineSize numReducer rank : Nat) (tx : List (Option TxData)) :
    List (List Event) :=
  (List.range' 1 numReducer).map (shuffleRound lineSize numReducer rank tx)

/-- The table `partitionRxData` after the shuffle on the worker `rank`, `net i` being the
transfer received from the worker `i`: the entry `i - 1` is set in every round but the
worker's own. -/
def shuffleRx (numReducer rank : Nat) (net : Nat → TxData) : List (Option TxData) :=
  (List.range' 1 numReducer).map (fun i => if i = rank then none else some (net i))

/-- The records of one inbound buffer: `numLine` strides of `lineSize` bytes. -/
def unpackData (lineSize : Nat) (rx : TxData) : LineList :=
  (List.range rx.numLine).map (fun lc => (rx.data.drop (lc * lineSize)).take lineSize)

/-- The second loop of the unpack phase, `n` iterations left from the worker `i` on: the
records of every inbound buffer but the worker's own entry, by ascending worker. -/
def unpackLoop (lineSize rank : Nat) (rx : List (Option TxData)) : Nat → Nat → LineList
  | 0, _ => []
  | n + 1, i =>
    if i = rank then unpackLoop lineSize rank rx n (i + 1)
    else unpackData lineSize (txFor rx i) ++ unpackLoop lineSize rank rx n (i + 1)

/-- The unpack phase of `run` on the worker `rank`: `localList` holds a copy of the
`lineSize` bytes of every record of the retained bucket, then the records received from
the other workers. -/
def unpack (conf : Configuration) (rank : Nat) (partitionCollection : List (Option LineList))
    (rx : List (Option TxData)) : LineList :=
  ((partitionCollection.getD (rank - 1) none).getD []).map (fun r => r.take conf.lineSize) ++
    unpackLoop conf.lineSize rank rx conf.numReducer 1

/-- The map phase on every worker, ranks `1 .. numReducer`, from rank `rank` on with `n`
workers left; `files` holds the shards by worker index (`rank - 1`) and `scratch` what the
uninitialised buffer holds on each worker. Nothing when a worker aborts. -/
def mapAll (conf : Configuration) (partitionList : PartitionList) (scratch : Nat → Line)
    (files : List (Option (List Byte))) : Nat → Nat → Option (List MapState)
  | 0, _ => some []
  | n + 1, rank =>
    match execMap conf rank partitionList (scratch rank) (files.getD (rank - 1) none) with
    | none => none
    | some st =>
      match mapAll conf partitionList scratch files n (rank + 1) with
      | none => none
      | some sts => some (st :: sts)

/-- The transfer the worker `dst` receives from the worker `src`: on a reliable, ordered
transport, what `src` sent to `dst` in round `src`, from its `partitionTxData[dst - 1]`. -/
def delivered (conf : Configuration) (states : List MapState) (dst src : Nat) : TxData :=
  match states[src - 1]? with
  | some st => transfer conf.lineSize (txFor st.partitionTxData dst)
  | none => { data := [], numLine := 0 }

/-- The working list of the worker `rank` after map, shuffle and unpack on every worker. -/
def localListOf (conf : Configuration) (states : List MapState) (rank : Nat) : LineList :=
  match states[rank - 1]? with
  | some st =>
    unpack conf rank st.partitionCollection (shuffleRx conf.numReducer rank (delivered conf states rank))
  | none => []

/-- The working lists of all workers, by rank, after map, shuffle and unpack. -/
def runUnpacked (conf : Configuration) (partitionList : PartitionList) (scratch : Nat → Line)
    (files : List (Option (List Byte))) : Option (List LineList) :=
  match mapAll conf partitionList scratch files conf.numReducer 1 with
  | none => none
  | some states => some ((List.range' 1 conf.numReducer).map (localListOf conf states))

/-- The destinations of the payload sends of a trace, in order. -/
def sendDests (es : List Event) : List Nat :=
  es.filterMap (fun e => match e with | Event.sendData d _ => some d | _ => none)

/-- The destinations of the count sends of a trace, in order. -/
def countDests (es : List Event) : List Nat :=
  es.filterMap (fun e => match e with | Event.sendNumLine d _ => some d | _ => none)

/-- The sources of the payload receives of a trace, in order. -/
def recvSrcs (es : List Event) : List Nat :=
  es.filterMap (fun e => match e with | Event.recvData src => some src | _ => none)

/-- The sources of the count receives of a trace, in order. -/
def recvCountSrcs (es : List Event) : List Nat :=
  es.filterMap (fun e => match e with | Event.recvNumLine src => some src | _ => none)

/-- The number of barriers a trace passes. -/
def barrierCount (es : List Event) : Nat := es.count Event.barrier

/-- The records of the shard `bytes` that the map loop of `execMap` classifies to the
partition `w`, in input order. -/
def classifiedTo (conf : Configuration) (partitionList : PartitionList) (scratch : Line)
    (bytes : List Byte) (w : Nat) : LineList :=
  (shardLines bytes conf.lineSize (shardNumLine bytes.length conf.lineSize)).filter
    (fun r => decide
      ((buildTrie partitionList 0 partitionList.length scratch 0 2).1.findPartition
        partitionList conf.keySize r = some w))

/-! ## The reduce phase and the output -/

/-- Modelled from the spec: the comparator `Sorter` of `Utility.h`, which is not among
the sources, as an order: `a` may stand before `b` when `b` is not below `a` on the first
`keySize` bytes. -/
def keyLE (keySize : Nat) (a b : Line) : Prop := cmpKey b a keySize = false

instance (keySize : Nat) : DecidableRel (keyLE keySize) :=
  fun a b => inferInstanceAs (Decidable (cmpKey b a keySize = false))

/-- What `std::sort` guarantees of its result: a permutation of the input in which no
record stands before a record of smaller key. -/
def IsSortResult (keySize : Nat) (input output : LineList) : Prop :=
  output.Perm input ∧ output.Pairwise (keyLE keySize)

/-- `Worker::execReduce`: `std::sort` of the working list with `Sorter(keySize)`; the
result computed here is the one insertion sort gives. -/
def execReduce (conf : Configuration) (localList : LineList) : LineList :=
  localList.insertionSort (keyLE conf.keySize)

/-- `Worker::outputLocalList`: the bytes written to the output file, `lineSize` bytes of
each record of the working list, one record after the other. -/
def outputLocalList (conf : Configuration) (localList : LineList) : List Byte :=
  packLines conf.lineSize localList

/-- The sorted working lists of all workers after the full run, by rank. -/
def runSorted (conf : Configuration) (partitionList : PartitionList) (scratch : Nat → Line)
    (files : List (Option (List Byte))) : Option (List LineList) :=
  match runUnpacked conf partitionList scratch files with
  | none => none
  | some lists => some (lists.map (execReduce conf))

/-! ## Predicates used in the statements and proofs -/

/-- Two buffers of the same size that hold the same first `d` bytes. -/
def Agree (a b : Line) (d : Nat) : Prop :=
  a.length = b.length ∧ ∀ t, t < d → byteAt a t = byteAt b t

/-- The boundary keys are sorted ascending on their first `n` bytes. -/
def SortedUpTo (pl : PartitionList) (n : Nat) : Prop :=
  ∀ i j, i < j → j < pl.length → cmpKey (pl.getD j []) (pl.getD i []) n = false

/-- The boundaries of index `[L, U)` hold the bytes of `key` at the offsets below `d`. -/
def RangeAgrees (pl : PartitionList) (key : Line) (d L U : Nat) : Prop :=
  ∀ i, L ≤ i → i < U → ∀ t, t < d → byteAt (pl.getD i []) t = byteAt key t

/-- Invariant of the `for` loop at byte value `ch` and index `curr`: within `[L, U)` the
boundaries before `curr` have a byte below `ch` at offset `d`, the others a byte of at
least `ch`. -/
def LoopInv (pl : PartitionList) (d L U ch curr : Nat) : Prop :=
  L ≤ curr ∧ curr ≤ U ∧
    (∀ i, L ≤ i → i < curr → (byteAt (pl.getD i []) d).val < ch) ∧
    (∀ i, curr ≤ i → i < U → ch ≤ (byteAt (pl.getD i []) d).val)

/-- What the loop hands to the recursive call for byte value `c`: the range `[l, u)` of
the boundaries of `[L, U)` whose byte at offset `d` is `c`, and a scratch buffer of `len`
bytes holding the bytes of `key` below offset `d` and `c` at offset `d`. -/
def ChildSpec (pl : PartitionList) (key : Line) (d L U c l u : Nat) (p : Line) (len : Nat) :
    Prop :=
  L ≤ l ∧ l ≤ u ∧ u ≤ U ∧
    (∀ i, L ≤ i → i < l → (byteAt (pl.getD i []) d).val < c) ∧
    (∀ i, l ≤ i → i < u → (byteAt (pl.getD i []) d).val = c) ∧
    (∀ i, u ≤ i → i < U → c < (byteAt (pl.getD i []) d).val) ∧
    (∀ t, t < d → byteAt p t = byteAt key t) ∧ (byteAt p d).val = c ∧ p.length = len

/-- The range `[lower, upper)` brackets `key` at depth `d`: the boundaries before it are
below the key on the first `d` bytes, those from `upper` on are above it, and those of
the range hold the key's first `d` bytes. -/
def Bracket (pl : PartitionList) (key : Line) (d lower upper : Nat) : Prop :=
  lower ≤ upper ∧ upper ≤ pl.length ∧
    (∀ i, i < lower → cmpKey (pl.getD i []) key d = true) ∧
    (∀ i, upper ≤ i → i < pl.length → cmpKey key (pl.getD i []) d = true) ∧
    RangeAgrees pl key d lower upper

/-- The id `r` is the number of boundaries strictly below `key`: the boundaries before
`r` are below the key and the boundary at `r`, when there is one, is not. -/
def IsRank (pl : PartitionList) (keySize : Nat) (key : Line) (r : Nat) : Prop :=
  r ≤ pl.length ∧ (∀ i, i < r → cmpKey (pl.getD i []) key keySize = true) ∧
    (r < pl.length → cmpKey (pl.getD r []) key keySize = false)

/-- A well-formed job: at least one worker, `numReducer - 1` boundary keys of
`keySize + 1` bytes sorted ascending on their key bytes, and a key of at least two bytes
(the depth of the trie `execMap` builds) inside the record. -/
structure WellFormed (conf : Configuration) (pl : PartitionList) : Prop where
  one_le : 1 ≤ conf.numReducer
  size : pl.length = conf.numReducer - 1
  key_ge : 2 ≤ conf.keySize
  key_le : conf.keySize ≤ conf.lineSize
  bounds : ∀ b ∈ pl, b.length = conf.keySize + 1
  sorted : pl.Pairwise (fun a b => cmpKey b a conf.keySize = false)

/-! ## Theorems -/

theorem cmpKeyFrom_iff (a b : Line) (n i : Nat) :
    cmpKeyFrom a b n i = true ↔
      ∃ j, i ≤ j ∧ j < i + n ∧ (∀ t, i ≤ t → t < j → byteAt a t = byteAt b t) ∧
        byteAt a j < byteAt b j := by
  induction n generalizing i with
  | zero =>
    simp only [cmpKeyFrom, Bool.false_eq_true, false_iff]
    rintro ⟨j, h1, h2, _⟩
    omega
  | succ n ih =>
    unfold cmpKeyFrom
    by_cases h1 : byteAt a i < byteAt b i
    · simp only [h1, if_true, true_iff]
      exact ⟨i, le_refl _, by omega, fun t h2 h3 => by omega, h1⟩
    · by_cases h2 : byteAt b i < byteAt a i
      · simp only [h1, h2, if_true, if_false, Bool.false_eq_true, false_iff]
        rintro ⟨j, h3, _, h5, h6⟩
        rcases Nat.eq_or_lt_of_le h3 with h7 | h7
        · subst h7
          exact h1 h6
        · have h8 := h5 i (le_refl _) h7
          rw [h8] at h2
          exact lt_irrefl _ h2
      · simp only [h1, h2, if_false]
        have heq : byteAt a i = byteAt b i := le_antisymm (not_lt.mp h2) (not_lt.mp h1)
        rw [ih (i + 1)]
        constructor
        · rintro ⟨j, h3, h4, h5, h6⟩
          refine ⟨j, by omega, by omega, fun t h7 h8 => ?_, h6⟩
          rcases Nat.eq_or_lt_of_le h7 with h9 | h9
          · subst h9
            exact heq
          · exact h5 t h9 h8
        · rintro ⟨j, h3, h4, h5, h6⟩
          rcases Nat.eq_or_lt_of_le h3 with h7 | h7
          · subst h7
            exact absurd h6 h1
          · exact ⟨j, h7, by omega, fun t h8 h9 => h5 t (by omega) h9, h6⟩

theorem cmpKey_iff (a b : Line) (n : Nat) :
    cmpKey a b n = true ↔
      ∃ j, j < n ∧ (∀ t, t < j → byteAt a t = byteAt b t) ∧ byteAt a j < byteAt b j := by
  unfold cmpKey
  rw [cmpKeyFrom_iff]
  constructor
  · rintro ⟨j, _, h2, h3, h4⟩
    exact ⟨j, by omega, fun t ht => h3 t (Nat.zero_le _) ht, h4⟩
  · rintro ⟨j, h2, h3, h4⟩
    exact ⟨j, Nat.zero_le _, by omega, fun t _ ht => h3 t ht, h4⟩

theorem cmpKey_mono {a b : Line} {d n : Nat} (h : cmpKey a b d = true) (hdn : d ≤ n) :
    cmpKey a b n = true := by
  rw [cmpKey_iff] at h ⊢
  obtain ⟨j, h1, h2, h3⟩ := h
  exact ⟨j, by omega, h2, h3⟩

theorem cmpKey_false_mono {a b : Line} {d n : Nat} (h : cmpKey a b n = false) (hdn : d ≤ n) :
    cmpKey a b d = false := by
  by_contra hc
  rw [Bool.not_eq_false] at hc
  rw [cmpKey_mono hc hdn] at h
  exact Bool.noConfusion h

theorem cmpKey_congr_left {a c : Line} (b : Line) {n : Nat}
    (h : ∀ t, t < n → byteAt a t = byteAt c t) : cmpKey a b n = cmpKey c b n := by
  rw [Bool.eq_iff_iff, cmpKey_iff, cmpKey_iff]
  constructor
  · rintro ⟨j, h1, h2, h3⟩
    exact ⟨j, h1, fun t ht => by rw [← h t (by omega)]; exact h2 t ht, by rw [← h j h1]; exact h3⟩
  · rintro ⟨j, h1, h2, h3⟩
    exact ⟨j, h1, fun t ht => by rw [h t (by omega)]; exact h2 t ht, by rw [h j h1]; exact h3⟩

theorem cmpKey_congr_right (a : Line) {b c : Line} {n : Nat}
    (h : ∀ t, t < n → byteAt b t = byteAt c t) : cmpKey a b n = cmpKey a c n := by
  rw [Bool.eq_iff_iff, cmpKey_iff, cmpKey_iff]
  constructor
  · rintro ⟨j, h1, h2, h3⟩
    exact ⟨j, h1, fun t ht => by rw [← h t (by omega)]; exact h2 t ht, by rw [← h j h1]; exact h3⟩
  · rintro ⟨j, h1, h2, h3⟩
    exact ⟨j, h1, fun t ht => by rw [h t (by omega)]; exact h2 t ht, by rw [h j h1]; exact h3⟩

theorem cmpKey_of_agree {a b : Line} {d : Nat} (h : ∀ t, t < d → byteAt a t = byteAt b t) :
    cmpKey a b d = false := by
  by_contra hc
  rw [Bool.not_eq_false, cmpKey_iff] at hc
  obtain ⟨j, h1, _, h3⟩ := hc
  rw [h j h1] at h3
  exact lt_irrefl _ h3

theorem cmpKey_succ_of_agree {a b : Line} {d : Nat}
    (h : ∀ t, t < d → byteAt a t = byteAt b t) :
    cmpKey a b (d + 1) = true ↔ byteAt a d < byteAt b d := by
  rw [cmpKey_iff]
  constructor
  · rintro ⟨j, h1, _, h3⟩
    rcases Nat.eq_or_lt_of_le (Nat.lt_succ_iff.mp h1) with h4 | h4
    · subst h4
      exact h3
    · rw [h j h4] at h3
      exact absurd h3 (lt_irrefl _)
  · intro h1
    exact ⟨d, by omega, h, h1⟩

theorem cmpKeyFrom_lt_of_lt_of_le (a b c : Line) (n i : Nat)
    (hab : cmpKeyFrom a b n i = true) (hbc : cmpKeyFrom c b n i = false) :
    cmpKeyFrom a c n i = true := by
  induction n generalizing i with
  | zero => simp [cmpKeyFrom] at hab
  | succ n ih =>
    unfold cmpKeyFrom at hab hbc ⊢
    by_cases h1 : byteAt a i < byteAt b i
    · by_cases h2 : byteAt c i < byteAt b i
      · simp [h2] at hbc
      · have h3 : byteAt a i < byteAt c i := lt_of_lt_of_le h1 (not_lt.mp h2)
        simp [h3]
    · by_cases h2 : byteAt b i < byteAt a i
      · simp [h1, h2] at hab
      · have heq : byteAt a i = byteAt b i := le_antisymm (not_lt.mp h2) (not_lt.mp h1)
        simp only [h1, h2, if_false] at hab
        by_cases h3 : byteAt c i < byteAt b i
        · simp [h3] at hbc
        · by_cases h4 : byteAt b i < byteAt c i
          · simp [heq, h4]
          · simp only [h3, h4, if_false] at hbc
            have heq2 : byteAt c i = byteAt b i := le_antisymm (not_lt.mp h4) (not_lt.mp h3)
            simp only [heq, heq2, lt_irrefl, if_false]
            exact ih (i + 1) hab hbc

theorem cmpKeyFrom_lt_of_le_of_lt (a b c : Line) (n i : Nat)
    (hab : cmpKeyFrom b a n i = false) (hbc : cmpKeyFrom b c n i = true) :
    cmpKeyFrom a c n i = true := by
  induction n generalizing i with
  | zero => simp [cmpKeyFrom] at hbc
  | succ n ih =>
    unfold cmpKeyFrom at hab hbc ⊢
    by_cases h1 : byteAt b i < byteAt c i
    · by_cases h2 : byteAt b i < byteAt a i
      · simp [h2] at hab
      · have h3 : byteAt a i < byteAt c i := lt_of_le_of_lt (not_lt.mp h2) h1
        simp [h3]
    · by_cases h2 : byteAt c i < byteAt b i
      · simp [h1, h2] at hbc
      · have heq : byteAt b i = byteAt c i := le_antisymm (not_lt.mp h2) (not_lt.mp h1)
        simp only [h1, h2, if_false] at hbc
        by_cases h3 : byteAt b i < byteAt a i
        · simp [h3] at hab
        · by_cases h4 : byteAt a i < byteAt b i
          · simp [← heq, h4]
          · simp only [h3, h4, if_false] at hab
            have heq2 : byteAt a i = byteAt b i := le_antisymm (not_lt.mp h3) (not_lt.mp h4)
            simp only [← heq, heq2, lt_irrefl, if_false]
            exact ih (i + 1) hab hbc

theorem cmpKey_lt_of_lt_of_le {a b c : Line} {n : Nat}
    (hab : cmpKey a b n = true) (hbc : cmpKey c b n = false) : cmpKey a c n = true :=
  cmpKeyFrom_lt_of_lt_of_le a b c n 0 hab hbc

theorem cmpKey_lt_of_le_of_lt {a b c : Line} {n : Nat}
    (hab : cmpKey b a n = false) (hbc : cmpKey b c n = true) : cmpKey a c n = true :=
  cmpKeyFrom_lt_of_le_of_lt a b c n 0 hab hbc

theorem cmpKey_irrefl (a : Line) (n : Nat) : cmpKey a a n = false :=
  cmpKey_of_agree (fun _ _ => rfl)

theorem cmpKey_asymm {a b : Line} {n : Nat} (h : cmpKey a b n = true) :
    cmpKey b a n = false := by
  by_contra hc
  rw [Bool.not_eq_false, cmpKey_iff] at hc
  rw [cmpKey_iff] at h
  obtain ⟨j, _, h2, h3⟩ := h
  obtain ⟨k, _, h5, h6⟩ := hc
  rcases Nat.lt_trichotomy j k with h7 | h7 | h7
  · rw [h5 j h7] at h3
    exact lt_irrefl _ h3
  · subst h7
    exact lt_asymm h3 h6
  · rw [h2 k h7] at h6
    exact lt_irrefl _ h6

theorem cmpKey_le_trans {a b c : Line} {n : Nat}
    (hab : cmpKey b a n = false) (hbc : cmpKey c b n = false) : cmpKey c a n = false := by
  by_contra hc
  rw [Bool.not_eq_false] at hc
  have h1 := cmpKey_lt_of_lt_of_le hc hab
  rw [h1] at hbc
  exact Bool.noConfusion hbc

/-! ### The scan of `buildTrie` -/

theorem scanKeys_ge (pl : PartitionList) (pre : Line) (n upper fuel curr : Nat) :
    curr ≤ scanKeys pl pre n upper fuel curr := by
  induction fuel generalizing curr with
  | zero => simp [scanKeys]
  | succ fuel ih =>
    unfold scanKeys
    split_ifs
    · exact le_refl _
    · exact le_trans (Nat.le_succ _) (ih (curr + 1))
    · exact le_refl _

theorem scanKeys_le (pl : PartitionList) (pre : Line) (n upper fuel curr : Nat)
    (h : curr ≤ upper) : scanKeys pl pre n upper fuel curr ≤ upper := by
  induction fuel generalizing curr with
  | zero => simpa [scanKeys] using h
  | succ fuel ih =>
    unfold scanKeys
    split_ifs with h1 h2
    · exact h
    · exact ih (curr + 1) h1
    · exact h

theorem scanKeys_skipped (pl : PartitionList) (pre : Line) (n upper fuel curr i : Nat)
    (h1 : curr ≤ i) (h2 : i < scanKeys pl pre n upper fuel curr) :
    cmpKey pre (pl.getD i []) n = false := by
  induction fuel generalizing curr with
  | zero =>
    simp only [scanKeys] at h2
    omega
  | succ fuel ih =>
    unfold scanKeys at h2
    split_ifs at h2 with h3 h4
    · omega
    · rcases Nat.eq_or_lt_of_le h1 with h5 | h5
      · subst h5
        simpa using h4
      · exact ih (curr + 1) h5 h2
    · omega

theorem scanKeys_stop (pl : PartitionList) (pre : Line) (n upper fuel curr : Nat)
    (hf : upper - curr ≤ fuel) (h : scanKeys pl pre n upper fuel curr < upper) :
    cmpKey pre (pl.getD (scanKeys pl pre n upper fuel curr) []) n = true := by
  induction fuel generalizing curr with
  | zero =>
    simp only [scanKeys] at h
    omega
  | succ fuel ih =>
    unfold scanKeys at h ⊢
    split_ifs at h ⊢ with h3 h4
    · exact h4
    · exact ih (curr + 1) (by omega) h
    · omega

theorem scanKeys_congr (pl : PartitionList) {pre pre2 : Line} (n upper fuel curr : Nat)
    (h : ∀ t, t < n → byteAt pre t = byteAt pre2 t) :
    scanKeys pl pre n upper fuel curr = scanKeys pl pre2 n upper fuel curr := by
  induction fuel generalizing curr with
  | zero => rfl
  | succ fuel ih =>
    unfold scanKeys
    rw [cmpKey_congr_left _ h, ih]

/-! ### The scratch buffer -/

theorem Agree.refl (a : Line) (d : Nat) : Agree a a d := ⟨rfl, fun _ _ => rfl⟩

theorem Agree.symm {a b : Line} {d : Nat} (h : Agree a b d) : Agree b a d :=
  ⟨h.1.symm, fun t ht => (h.2 t ht).symm⟩

theorem Agree.trans {a b c : Line} {d : Nat} (h1 : Agree a b d) (h2 : Agree b c d) :
    Agree a c d :=
  ⟨h1.1.trans h2.1, fun t ht => (h1.2 t ht).trans (h2.2 t ht)⟩

theorem Agree.mono {a b : Line} {d e : Nat} (h : Agree a b e) (hde : d ≤ e) : Agree a b d :=
  ⟨h.1, fun t ht => h.2 t (by omega)⟩

theorem byteAt_set (l : Line) (d t : Nat) (x : Byte) :
    byteAt (l.set d x) t = if d = t ∧ d < l.length then x else byteAt l t := by
  unfold byteAt
  rw [List.getD_eq_getElem?_getD, List.getD_eq_getElem?_getD, List.getElem?_set]
  by_cases h1 : d = t
  · subst h1
    by_cases h2 : d < l.length
    · simp [h2]
    · simp [h2, List.getElem?_eq_none (not_lt.mp h2)]
  · simp [h1]

theorem agree_set (l : Line) (d : Nat) (x : Byte) : Agree (l.set d x) l d := by
  refine ⟨List.length_set _ _ _, fun t ht => ?_⟩
  rw [byteAt_set, if_neg]
  omega

theorem agree_set_set {a b : Line} {d : Nat} (x : Byte) (h : Agree a b d) :
    Agree (a.set d x) (b.set d x) (d + 1) := by
  refine ⟨by rw [List.length_set, List.length_set]; exact h.1, fun t ht => ?_⟩
  rw [byteAt_set, byteAt_set, h.1]
  split_ifs with h1
  · rfl
  · by_cases h2 : t = d
    · subst h2
      have h3 : ¬ t < b.length := fun h4 => h1 ⟨rfl, h4⟩
      unfold byteAt
      rw [List.getD_eq_getElem?_getD, List.getD_eq_getElem?_getD,
        List.getElem?_eq_none (not_lt.mp h3), List.getElem?_eq_none (h.1 ▸ not_lt.mp h3)]
    · exact h.2 t (by omega)

theorem buildChildren_succ (build : Nat → Nat → Line → TrieNode × Line) (pl : PartitionList)
    (upper d n ch curr : Nat) (pre : Line) :
    buildChildren build pl upper d (n + 1) ch curr pre =
      ((build curr (scanKeys pl (pre.set d (Fin.ofNat ch)) (d + 1) upper (upper - curr) curr)
          (pre.set d (Fin.ofNat ch))).1 ::
        (buildChildren build pl upper d n (ch + 1)
          (scanKeys pl (pre.set d (Fin.ofNat ch)) (d + 1) upper (upper - curr) curr)
          (build curr (scanKeys pl (pre.set d (Fin.ofNat ch)) (d + 1) upper (upper - curr) curr)
            (pre.set d (Fin.ofNat ch))).2).1,
       (buildChildren build pl upper d n (ch + 1)
          (scanKeys pl (pre.set d (Fin.ofNat ch)) (d + 1) upper (upper - curr) curr)
          (build curr (scanKeys pl (pre.set d (Fin.ofNat ch)) (d + 1) upper (upper - curr) curr)
            (pre.set d (Fin.ofNat ch))).2).2.1,
       (buildChildren build pl upper d n (ch + 1)
          (scanKeys pl (pre.set d (Fin.ofNat ch)) (d + 1) upper (upper - curr) curr)
          (build curr (scanKeys pl (pre.set d (Fin.ofNat ch)) (d + 1) upper (upper - curr) curr)
            (pre.set d (Fin.ofNat ch))).2).2.2) := by
  rw [buildChildren]

theorem buildTrieAux_leaf (pl : PartitionList) (maxDepth fuel d lower upper : Nat) (pre : Line)
    (h : d ≥ maxDepth ∨ lower = upper) :
    buildTrieAux pl maxDepth fuel d lower upper pre = (.leaf d lower upper, pre) := by
  cases fuel with
  | zero => rw [buildTrieAux]
  | succ fuel => rw [buildTrieAux, if_pos h]

theorem buildTrieAux_inner (pl : PartitionList) (maxDepth fuel d lower upper : Nat) (pre : Line)
    (h : ¬ (d ≥ maxDepth ∨ lower = upper)) :
    buildTrieAux pl maxDepth (fuel + 1) d lower upper pre =
      (.inner d
        ((buildChildren (buildTrieAux pl maxDepth fuel (d + 1)) pl upper d loopBytes 0 lower pre).1 ++
          [(buildTrieAux pl maxDepth fuel (d + 1)
            (buildChildren (buildTrieAux pl maxDepth fuel (d + 1)) pl upper d loopBytes 0 lower pre).2.1
            upper
            ((buildChildren (buildTrieAux pl maxDepth fuel (d + 1)) pl upper d loopBytes 0 lower
              pre).2.2.set d 255)).1]),
       (buildTrieAux pl maxDepth fuel (d + 1)
            (buildChildren (buildTrieAux pl maxDepth fuel (d + 1)) pl upper d loopBytes 0 lower pre).2.1
            upper
            ((buildChildren (buildTrieAux pl maxDepth fuel (d + 1)) pl upper d loopBytes 0 lower
              pre).2.2.set d 255)).2) := by
  rw [buildTrieAux, if_neg h]

theorem buildChildren_zero (build : Nat → Nat → Line → TrieNode × Line) (pl : PartitionList)
    (upper d ch curr : Nat) (pre : Line) :
    buildChildren build pl upper d 0 ch curr pre = ([], curr, pre) := by
  rw [buildChildren]

theorem buildChildren_agree (build : Nat → Nat → Line → TrieNode × Line) (pl : PartitionList)
    (upper d : Nat) (hb : ∀ l u p, Agree (build l u p).2 p (d + 1)) (n ch curr : Nat)
    (pre : Line) : Agree (buildChildren build pl upper d n ch curr pre).2.2 pre d := by
  induction n generalizing ch curr pre with
  | zero =>
    rw [buildChildren_zero]
    exact Agree.refl _ _
  | succ n ih =>
    rw [buildChildren_succ]
    exact (ih _ _ _).trans (((hb _ _ _).mono (Nat.le_succ d)).trans (agree_set _ _ _))

theorem buildTrieAux_agree (pl : PartitionList) (maxDepth fuel d lower upper : Nat)
    (pre : Line) : Agree (buildTrieAux pl maxDepth fuel d lower upper pre).2 pre d := by
  induction fuel generalizing d lower upper pre with
  | zero =>
    rw [buildTrieAux]
    exact Agree.refl _ _
  | succ fuel ih =>
    by_cases h : d ≥ maxDepth ∨ lower = upper
    · rw [buildTrieAux_leaf _ _ _ _ _ _ _ h]
      exact Agree.refl _ _
    · rw [buildTrieAux_inner _ _ _ _ _ _ _ h]
      exact ((ih _ _ _ _).mono (Nat.le_succ d)).trans ((agree_set _ _ _).trans
        (buildChildren_agree _ _ _ _ (fun l u p => ih (d + 1) l u p) _ _ _ _))

theorem buildChildren_congr (build : Nat → Nat → Line → TrieNode × Line) (pl : PartitionList)
    (upper d : Nat) (hb : ∀ l u p, Agree (build l u p).2 p (d + 1))
    (hc : ∀ l u p q, Agree p q (d + 1) → (build l u p).1 = (build l u q).1)
    (n ch curr : Nat) (pre pre2 : Line) (h : Agree pre pre2 d) :
    (buildChildren build pl upper d n ch curr pre).1 =
        (buildChildren build pl upper d n ch curr pre2).1 ∧
      (buildChildren build pl upper d n ch curr pre).2.1 =
        (buildChildren build pl upper d n ch curr pre2).2.1 := by
  induction n generalizing ch curr pre pre2 with
  | zero =>
    rw [buildChildren_zero, buildChildren_zero]
    exact ⟨rfl, rfl⟩
  | succ n ih =>
    rw [buildChildren_succ, buildChildren_succ]
    have hs := agree_set_set (Fin.ofNat ch) h
    rw [scanKeys_congr pl (d + 1) upper (upper - curr) curr hs.2]
    have h1 := hc curr (scanKeys pl (pre2.set d (Fin.ofNat ch)) (d + 1) upper (upper - curr) curr)
      _ _ hs
    have h2 : Agree
        (build curr (scanKeys pl (pre2.set d (Fin.ofNat ch)) (d + 1) upper (upper - curr) curr)
          (pre.set d (Fin.ofNat ch))).2
        (build curr (scanKeys pl (pre2.set d (Fin.ofNat ch)) (d + 1) upper (upper - curr) curr)
          (pre2.set d (Fin.ofNat ch))).2 d :=
      (((hb _ _ _).trans hs).trans (hb _ _ _).symm).mono (Nat.le_succ d)
    have h3 := ih (ch + 1)
      (scanKeys pl (pre2.set d (Fin.ofNat ch)) (d + 1) upper (upper - curr) curr) _ _ h2
    exact ⟨by rw [h1, h3.1], h3.2⟩

theorem buildTrieAux_congr (pl : PartitionList) (maxDepth fuel d lower upper : Nat)
    (p q : Line) (h : Agree p q d) :
    (buildTrieAux pl maxDepth fuel d lower upper p).1 =
      (buildTrieAux pl maxDepth fuel d lower upper q).1 := by
  induction fuel generalizing d lower upper p q with
  | zero => rw [buildTrieAux, buildTrieAux]
  | succ fuel ih =>
    by_cases hl : d ≥ maxDepth ∨ lower = upper
    · rw [buildTrieAux_leaf _ _ _ _ _ _ _ hl, buildTrieAux_leaf _ _ _ _ _ _ _ hl]
    · rw [buildTrieAux_inner _ _ _ _ _ _ _ hl, buildTrieAux_inner _ _ _ _ _ _ _ hl]
      have hb : ∀ l u r, Agree (buildTrieAux pl maxDepth fuel (d + 1) l u r).2 r (d + 1) :=
        fun l u r => buildTrieAux_agree _ _ _ _ _ _ _
      have hc := buildChildren_congr (buildTrieAux pl maxDepth fuel (d + 1)) pl upper d hb
        (fun l u r s hrs => ih (d + 1) l u r s hrs) loopBytes 0 lower p q h
      have h1 : Agree
          (buildChildren (buildTrieAux pl maxDepth fuel (d + 1)) pl upper d loopBytes 0 lower
            p).2.2
          (buildChildren (buildTrieAux pl maxDepth fuel (d + 1)) pl upper d loopBytes 0 lower
            q).2.2 d :=
        ((buildChildren_agree _ _ _ _ hb _ _ _ _).trans h).trans
          (buildChildren_agree _ _ _ _ hb _ _ _ _).symm
      have h2 := ih (d + 1)
        (buildChildren (buildTrieAux pl maxDepth fuel (d + 1)) pl upper d loopBytes 0 lower
          q).2.1 upper _ _ (agree_set_set 255 h1)
      simp only [hc.1, hc.2, h2]

/-! ### The loop invariant of `buildTrie` -/

theorem sortedUpTo_mono {pl : PartitionList} {d n : Nat} (h : SortedUpTo pl n) (hdn : d ≤ n) :
    SortedUpTo pl d :=
  fun i j hij hj => cmpKey_false_mono (h i j hij hj) hdn

theorem sortedUpTo_of_pairwise {pl : PartitionList} {n : Nat}
    (h : pl.Pairwise (fun a b => cmpKey b a n = false)) : SortedUpTo pl n := by
  intro i j hij hj
  rw [List.pairwise_iff_getElem] at h
  have h1 := h i j (by omega) hj hij
  rw [List.getD_eq_getElem _ _ hj, List.getD_eq_getElem _ _ (by omega : i < pl.length)]
  exact h1

theorem loop_step (pl : PartitionList) (key pre : Line) (d L U ch curr : Nat) (x : Byte)
    (hx : x.val = ch) (hU : U ≤ pl.length) (hs : SortedUpTo pl (d + 1))
    (hr : RangeAgrees pl key d L U) (hp : ∀ t, t < d → byteAt pre t = byteAt key t)
    (hd : d < pre.length) (hI : LoopInv pl d L U ch curr) :
    (∀ i, curr ≤ i → i < scanKeys pl (pre.set d x) (d + 1) U (U - curr) curr →
        (byteAt (pl.getD i []) d).val = ch) ∧
      LoopInv pl d L U (ch + 1) (scanKeys pl (pre.set d x) (d + 1) U (U - curr) curr) := by
  obtain ⟨hI1, hI2, hI3, hI4⟩ := hI
  have hge := scanKeys_ge pl (pre.set d x) (d + 1) U (U - curr) curr
  have hle := scanKeys_le pl (pre.set d x) (d + 1) U (U - curr) curr hI2
  have hagree : ∀ i, L ≤ i → i < U → ∀ t, t < d →
      byteAt (pre.set d x) t = byteAt (pl.getD i []) t := by
    intro i h1 h2 t ht
    rw [byteAt_set, if_neg (by omega), hp t ht, hr i h1 h2 t ht]
  have hxd : byteAt (pre.set d x) d = x := by
    rw [byteAt_set, if_pos ⟨rfl, hd⟩]
  have hskip : ∀ i, curr ≤ i → i < scanKeys pl (pre.set d x) (d + 1) U (U - curr) curr →
      (byteAt (pl.getD i []) d).val = ch := by
    intro i h1 h2
    have h3 := scanKeys_skipped pl (pre.set d x) (d + 1) U (U - curr) curr i h1 h2
    have h4 : ¬ byteAt (pre.set d x) d < byteAt (pl.getD i []) d := by
      intro h5
      rw [(cmpKey_succ_of_agree (hagree i (by omega) (by omega))).mpr h5] at h3
      exact Bool.noConfusion h3
    rw [hxd, Fin.lt_def, hx] at h4
    have h6 := hI4 i h1 (by omega)
    omega
  refine ⟨hskip, by omega, hle, ?_, ?_⟩
  · intro i h1 h2
    by_cases h3 : i < curr
    · have := hI3 i h1 h3
      omega
    · have := hskip i (by omega) h2
      omega
  · intro i h1 h2
    have hlt : scanKeys pl (pre.set d x) (d + 1) U (U - curr) curr < U := by omega
    have h3 := scanKeys_stop pl (pre.set d x) (d + 1) U (U - curr) curr (le_refl _) hlt
    rw [cmpKey_succ_of_agree (hagree _ (by omega) hlt), hxd, Fin.lt_def, hx] at h3
    rcases Nat.eq_or_lt_of_le h1 with h4 | h4
    · rw [← h4]
      omega
    · have h5 := hs _ i h4 (by omega)
      have h6 : ¬ byteAt (pl.getD i []) d <
          byteAt (pl.getD (scanKeys pl (pre.set d x) (d + 1) U (U - curr) curr) []) d := by
        intro h7
        have h8 : ∀ t, t < d → byteAt (pl.getD i []) t =
            byteAt (pl.getD (scanKeys pl (pre.set d x) (d + 1) U (U - curr) curr) []) t := by
          intro t ht
          rw [hr i (by omega) h2 t ht, hr _ (by omega) hlt t ht]
        rw [(cmpKey_succ_of_agree h8).mpr h7] at h5
        exact Bool.noConfusion h5
      rw [Fin.lt_def] at h6
      omega

theorem val_ofNat_byte (ch : Nat) (h : ch < 256) : (Fin.ofNat ch : Byte).val = ch := by
  show ch % 256 = ch
  exact Nat.mod_eq_of_lt h

theorem buildChildren_spec (build : Nat → Nat → Line → TrieNode × Line) (pl : PartitionList)
    (key : Line) (d L U : Nat) (hU : U ≤ pl.length) (hs : SortedUpTo pl (d + 1))
    (hr : RangeAgrees pl key d L U) (hb : ∀ l u p, Agree (build l u p).2 p (d + 1))
    (n ch curr : Nat) (pre : Line) (hn : ch + n ≤ 256)
    (hp : ∀ t, t < d → byteAt pre t = byteAt key t) (hd : d < pre.length)
    (hI : LoopInv pl d L U ch curr) :
    (buildChildren build pl U d n ch curr pre).1.length = n ∧
      LoopInv pl d L U (ch + n) (buildChildren build pl U d n ch curr pre).2.1 ∧
      (∀ t, t < d → byteAt (buildChildren build pl U d n ch curr pre).2.2 t = byteAt key t) ∧
      (buildChildren build pl U d n ch curr pre).2.2.length = pre.length ∧
      ∀ j, j < n → ∃ l u p,
        (buildChildren build pl U d n ch curr pre).1[j]? = some (build l u p).1 ∧
          ChildSpec pl key d L U (ch + j) l u p pre.length := by
  induction n generalizing ch curr pre with
  | zero =>
    rw [buildChildren_zero]
    exact ⟨rfl, hI, hp, rfl, fun j hj => absurd hj (Nat.not_lt_zero j)⟩
  | succ n ih =>
    rw [buildChildren_succ]
    have hx : (Fin.ofNat ch : Byte).val = ch := val_ofNat_byte ch (by omega)
    obtain ⟨hskip, hI2⟩ := loop_step pl key pre d L U ch curr (Fin.ofNat ch) hx hU hs hr hp hd hI
    have hp1 : ∀ t, t < d → byteAt (pre.set d (Fin.ofNat ch)) t = byteAt key t := by
      intro t ht
      rw [byteAt_set, if_neg (by omega), hp t ht]
    have hl1 : (pre.set d (Fin.ofNat ch)).length = pre.length := List.length_set _ _ _
    have ha := hb curr (scanKeys pl (pre.set d (Fin.ofNat ch)) (d + 1) U (U - curr) curr)
      (pre.set d (Fin.ofNat ch))
    have hp2 : ∀ t, t < d → byteAt (build curr
        (scanKeys pl (pre.set d (Fin.ofNat ch)) (d + 1) U (U - curr) curr)
        (pre.set d (Fin.ofNat ch))).2 t = byteAt key t := by
      intro t ht
      rw [ha.2 t (by omega), hp1 t ht]
    have hl2 : (build curr (scanKeys pl (pre.set d (Fin.ofNat ch)) (d + 1) U (U - curr) curr)
        (pre.set d (Fin.ofNat ch))).2.length = pre.length := by rw [ha.1, hl1]
    obtain ⟨h1, h2, h3, h4, h5⟩ := ih (ch + 1)
      (scanKeys pl (pre.set d (Fin.ofNat ch)) (d + 1) U (U - curr) curr)
      (build curr (scanKeys pl (pre.set d (Fin.ofNat ch)) (d + 1) U (U - curr) curr)
        (pre.set d (Fin.ofNat ch))).2 (by omega) hp2 (by omega) hI2
    have e1 : ch + 1 + n = ch + (n + 1) := by omega
    refine ⟨by simp [h1], by rw [← e1]; exact h2, h3, by rw [h4, hl2], ?_⟩
    intro j hj
    cases j with
    | zero =>
      refine ⟨curr, scanKeys pl (pre.set d (Fin.ofNat ch)) (d + 1) U (U - curr) curr,
        pre.set d (Fin.ofNat ch), by simp, hI.1, scanKeys_ge _ _ _ _ _ _, hI2.2.1, ?_, ?_, ?_,
        hp1, ?_, hl1⟩
      · exact hI.2.2.1
      · exact hskip
      · intro i hi1 hi2
        have := hI2.2.2.2 i hi1 hi2
        omega
      · rw [byteAt_set, if_pos ⟨rfl, hd⟩]
        exact hx
    | succ j =>
      obtain ⟨l, u, q, hq1, hq2⟩ := h5 j (by omega)
      refine ⟨l, u, q, by simpa using hq1, ?_⟩
      have e2 : ch + 1 + j = ch + (j + 1) := by omega
      rw [← e2, ← hl2]
      exact hq2

/-! ### Leaf ranges bracket the key -/

theorem loopBytes_eq : loopBytes = 255 := by
  unfold loopBytes
  rfl

theorem leafOfChild_eq (cs : List TrieNode) (n : Nat) (key : Line) (c : TrieNode)
    (h : cs[n]? = some c) : leafOfChild cs n key = c.leafOf key := by
  induction cs generalizing n with
  | nil => simp at h
  | cons a cs ih =>
    cases n with
    | zero =>
      simp only [List.getElem?_cons_zero, Option.some.injEq] at h
      rw [leafOfChild, h]
    | succ n =>
      simp only [List.getElem?_cons_succ] at h
      rw [leafOfChild]
      exact ih n h

theorem leafOf_inner (level : Nat) (child : List TrieNode) (key : Line) :
    (TrieNode.inner level child).leafOf key = leafOfChild child (byteAt key level).val key := by
  rw [TrieNode.leafOf]

theorem leafOf_leaf (level lower upper : Nat) (key : Line) :
    (TrieNode.leaf level lower upper).leafOf key = some (level, lower, upper) := by
  rw [TrieNode.leafOf]

theorem bracket_child (pl : PartitionList) (key : Line) (d L U c l u : Nat) (p : Line)
    (len : Nat) (hB : Bracket pl key d L U) (hc : ChildSpec pl key d L U c l u p len)
    (hk : (byteAt key d).val = c) :
    Bracket pl key (d + 1) l u ∧ ∀ t, t < d + 1 → byteAt p t = byteAt key t := by
  obtain ⟨_, hB2, hB3, hB4, hB5⟩ := hB
  obtain ⟨hc1, hc2, hc3, hc4, hc5, hc6, hc7, hc8, _⟩ := hc
  refine ⟨⟨hc2, by omega, ?_, ?_, ?_⟩, ?_⟩
  · intro i hi
    by_cases h1 : i < L
    · exact cmpKey_mono (hB3 i h1) (Nat.le_succ d)
    · rw [cmpKey_succ_of_agree (hB5 i (by omega) (by omega)), Fin.lt_def, hk]
      exact hc4 i (by omega) hi
  · intro i hi1 hi2
    by_cases h1 : U ≤ i
    · exact cmpKey_mono (hB4 i h1 hi2) (Nat.le_succ d)
    · rw [cmpKey_succ_of_agree (fun t ht => (hB5 i (by omega) (by omega) t ht).symm),
        Fin.lt_def, hk]
      exact hc6 i hi1 (by omega)
  · intro i hi1 hi2 t ht
    rcases Nat.eq_or_lt_of_le (Nat.lt_succ_iff.mp ht) with h1 | h1
    · subst h1
      exact Fin.ext (by rw [hc5 i hi1 hi2, hk])
    · exact hB5 i (by omega) (by omega) t h1
  · intro t ht
    rcases Nat.eq_or_lt_of_le (Nat.lt_succ_iff.mp ht) with h1 | h1
    · subst h1
      exact Fin.ext (by rw [hc8, hk])
    · exact hc7 t h1

theorem buildTrieAux_bracket (pl : PartitionList) (key : Line) (maxDepth : Nat)
    (hs : SortedUpTo pl maxDepth) (fuel d lower upper : Nat) (pre : Line)
    (hB : Bracket pl key d lower upper) (hp : ∀ t, t < d → byteAt pre t = byteAt key t)
    (hlen : maxDepth ≤ pre.length) :
    ∃ lev lo up, (buildTrieAux pl maxDepth fuel d lower upper pre).1.leafOf key =
        some (lev, lo, up) ∧
      Bracket pl key lev lo up ∧ d ≤ lev ∧ (lev ≤ maxDepth ∨ lev = d) := by
  induction fuel generalizing d lower upper pre with
  | zero =>
    rw [buildTrieAux, leafOf_leaf]
    exact ⟨d, lower, upper, rfl, hB, le_refl _, Or.inr rfl⟩
  | succ fuel ih =>
    by_cases hl : d ≥ maxDepth ∨ lower = upper
    · rw [buildTrieAux_leaf _ _ _ _ _ _ _ hl, leafOf_leaf]
      exact ⟨d, lower, upper, rfl, hB, le_refl _, Or.inr rfl⟩
    · rw [buildTrieAux_inner _ _ _ _ _ _ _ hl, leafOf_inner]
      have hN := loopBytes_eq
      generalize loopBytes = N at hN ⊢
      have hd : d < maxDepth := by omega
      have hb : ∀ l u r, Agree (buildTrieAux pl maxDepth fuel (d + 1) l u r).2 r (d + 1) :=
        fun l u r => buildTrieAux_agree _ _ _ _ _ _ _
      have hI : LoopInv pl d lower upper 0 lower :=
        ⟨le_refl _, hB.1, fun i h1 h2 => by omega, fun i _ _ => Nat.zero_le _⟩
      obtain ⟨h1, h2, h3, h4, h5⟩ := buildChildren_spec (buildTrieAux pl maxDepth fuel (d + 1))
        pl key d lower upper hB.2.1 (sortedUpTo_mono hs hd) hB.2.2.2.2 hb N 0 lower pre
        (by omega) hp (by omega) hI
      have hc : (byteAt key d).val < 256 := (byteAt key d).isLt
      have key_step : ∀ l u (p : Line), ChildSpec pl key d lower upper (byteAt key d).val l u p
          pre.length →
          ∃ lev lo up, (buildTrieAux pl maxDepth fuel (d + 1) l u p).1.leafOf key =
              some (lev, lo, up) ∧
            Bracket pl key lev lo up ∧ d ≤ lev ∧ (lev ≤ maxDepth ∨ lev = d) := by
        intro l u p hcs
        obtain ⟨hb1, hb2⟩ := bracket_child pl key d lower upper _ l u p _ hB hcs rfl
        obtain ⟨lev, lo, up, g0, g1, g2, g3⟩ :=
          ih (d + 1) l u p hb1 hb2 (by rw [hcs.2.2.2.2.2.2.2.2]; exact hlen)
        refine ⟨lev, lo, up, g0, g1, by omega, ?_⟩
        rcases g3 with g3 | g3
        · exact Or.inl g3
        · exact Or.inl (by omega)
      by_cases hc2 : (byteAt key d).val < 255
      · obtain ⟨l, u, p, hq1, hq2⟩ := h5 (byteAt key d).val (by omega)
        rw [Nat.zero_add] at hq2
        rw [leafOfChild_eq _ _ key _ (by
          rw [List.getElem?_append_left (by omega)]
          exact hq1)]
        exact key_step l u p hq2
      · have hc3 : (byteAt key d).val = 255 := by omega
        rw [leafOfChild_eq _ _ key _ (by
          rw [List.getElem?_append_right (by omega), Nat.sub_eq_zero_of_le (by omega)]
          rfl)]
        apply key_step
        obtain ⟨hi1, hi2, hi3, hi4⟩ := h2
        refine ⟨hi1, hi2, le_refl _, ?_, ?_, ?_, ?_, ?_, ?_⟩
        · intro i g1 g2
          have := hi3 i g1 g2
          omega
        · intro i g1 g2
          have g3 := hi4 i g1 g2
          have g4 := (byteAt (pl.getD i []) d).isLt
          omega
        · intro i g1 g2
          omega
        · intro t ht
          rw [byteAt_set, if_neg (by omega), h3 t ht]
        · rw [byteAt_set, if_pos ⟨rfl, by omega⟩, hc3]
          rfl
        · rw [List.length_set, h4]

/-! ### The children of an inner node tile its range -/

theorem buildChildren_cuts (build : Nat → Nat → Line → TrieNode × Line) (pl : PartitionList)
    (U d n ch curr : Nat) (pre : Line) (hcu : curr ≤ U) :
    ∃ cuts : List Nat, cuts.length = n + 1 ∧ cuts[0]? = some curr ∧
      cuts[n]? = some (buildChildren build pl U d n ch curr pre).2.1 ∧
      (buildChildren build pl U d n ch curr pre).2.1 ≤ U ∧
      (buildChildren build pl U d n ch curr pre).1.length = n ∧
      ∀ j, j < n → ∃ l u q, cuts[j]? = some l ∧ cuts[j + 1]? = some u ∧ l ≤ u ∧
        (buildChildren build pl U d n ch curr pre).1[j]? = some (build l u q).1 := by
  induction n generalizing ch curr pre with
  | zero =>
    rw [buildChildren_zero]
    exact ⟨[curr], rfl, rfl, rfl, hcu, rfl, fun j hj => absurd hj (Nat.not_lt_zero j)⟩
  | succ n ih =>
    rw [buildChildren_succ]
    have hge := scanKeys_ge pl (pre.set d (Fin.ofNat ch)) (d + 1) U (U - curr) curr
    have hle := scanKeys_le pl (pre.set d (Fin.ofNat ch)) (d + 1) U (U - curr) curr hcu
    obtain ⟨cuts, h1, h2, h3, h4, h5, h6⟩ := ih (ch + 1)
      (scanKeys pl (pre.set d (Fin.ofNat ch)) (d + 1) U (U - curr) curr)
      (build curr (scanKeys pl (pre.set d (Fin.ofNat ch)) (d + 1) U (U - curr) curr)
        (pre.set d (Fin.ofNat ch))).2 hle
    refine ⟨curr :: cuts, by simp [h1], by simp, by simpa using h3, h4, by simp [h5], ?_⟩
    intro j hj
    cases j with
    | zero =>
      exact ⟨curr, scanKeys pl (pre.set d (Fin.ofNat ch)) (d + 1) U (U - curr) curr,
        pre.set d (Fin.ofNat ch), by simp, by simpa using h2, hge, by simp⟩
    | succ j =>
      obtain ⟨l, u, q, g1, g2, g3, g4⟩ := h6 j (by omega)
      exact ⟨l, u, q, by simpa using g1, by simpa using g2, g3, by simpa using g4⟩

theorem buildTrie_leaf_case (pl : PartitionList) (lower upper : Nat) (pre : Line)
    (d maxDepth : Nat) (h : d ≥ maxDepth ∨ lower = upper) :
    buildTrie pl lower upper pre d maxDepth = (.leaf d lower upper, pre) := by
  unfold buildTrie
  exact buildTrieAux_leaf _ _ _ _ _ _ _ h

theorem buildTrie_eq (pl : PartitionList) (lower upper : Nat) (pre : Line) (d maxDepth : Nat)
    (h : ¬ (d ≥ maxDepth ∨ lower = upper)) :
    buildTrie pl lower upper pre d maxDepth =
      (.inner d
        ((buildChildren (fun l u p => buildTrie pl l u p (d + 1) maxDepth) pl upper d loopBytes
            0 lower pre).1 ++
          [(buildTrie pl
            (buildChildren (fun l u p => buildTrie pl l u p (d + 1) maxDepth) pl upper d
              loopBytes 0 lower pre).2.1
            upper
            ((buildChildren (fun l u p => buildTrie pl l u p (d + 1) maxDepth) pl upper d
              loopBytes 0 lower pre).2.2.set d 255) (d + 1) maxDepth).1]),
       (buildTrie pl
            (buildChildren (fun l u p => buildTrie pl l u p (d + 1) maxDepth) pl upper d
              loopBytes 0 lower pre).2.1
            upper
            ((buildChildren (fun l u p => buildTrie pl l u p (d + 1) maxDepth) pl upper d
              loopBytes 0 lower pre).2.2.set d 255) (d + 1) maxDepth).2) := by
  unfold buildTrie
  have hf : maxDepth - d = (maxDepth - (d + 1)) + 1 := by omega
  rw [hf, buildTrieAux_inner _ _ _ _ _ _ _ h]

theorem buildTrie_inner_case (pl : PartitionList) (lower upper : Nat) (pre : Line)
    (d maxDepth : Nat) (h : ¬ (d ≥ maxDepth ∨ lower = upper)) (hlu : lower ≤ upper) :
    ∃ children cuts, (buildTrie pl lower upper pre d maxDepth).1 = .inner d children ∧
      children.length = 256 ∧ List.length cuts = 257 ∧ cuts[0]? = some lower ∧
      cuts[256]? = some upper ∧
      ∀ c, c < 256 → ∃ l u q, cuts[c]? = some l ∧ cuts[c + 1]? = some u ∧ l ≤ u ∧
        children[c]? = some (buildTrie pl l u q (d + 1) maxDepth).1 := by
  unfold buildTrie
  have hf : maxDepth - d = (maxDepth - (d + 1)) + 1 := by omega
  rw [hf, buildTrieAux_inner _ _ _ _ _ _ _ h]
  have hN := loopBytes_eq
  generalize loopBytes = N at hN ⊢
  generalize maxDepth - (d + 1) = fuel
  obtain ⟨cuts, h1, h2, h3, h4, h5, h6⟩ := buildChildren_cuts
    (buildTrieAux pl maxDepth fuel (d + 1)) pl upper d N 0 lower pre hlu
  refine ⟨_, cuts ++ [upper], rfl, by rw [List.length_append, h5, hN]; rfl,
    by rw [List.length_append, h1, hN]; rfl, ?_, ?_, ?_⟩
  · rw [List.getElem?_append_left (by omega)]
    exact h2
  · rw [List.getElem?_append_right (by omega), Nat.sub_eq_zero_of_le (by omega)]
    rfl
  · intro c hc
    by_cases hc2 : c < 255
    · obtain ⟨l, u, q, g1, g2, g3, g4⟩ := h6 c (by omega)
      refine ⟨l, u, q, ?_, ?_, g3, ?_⟩
      · rw [List.getElem?_append_left (by omega)]
        exact g1
      · rw [List.getElem?_append_left (by omega)]
        exact g2
      · rw [List.getElem?_append_left (by omega)]
        exact g4
    · have hc3 : c = 255 := by omega
      refine ⟨(buildChildren (buildTrieAux pl maxDepth fuel (d + 1)) pl upper d N 0 lower
          pre).2.1, upper,
        (buildChildren (buildTrieAux pl maxDepth fuel (d + 1)) pl upper d N 0 lower
          pre).2.2.set d 255, ?_, ?_, h4, ?_⟩
      · rw [List.getElem?_append_left (by omega), hc3, ← hN]
        exact h3
      · rw [List.getElem?_append_right (by omega), Nat.sub_eq_zero_of_le (by omega)]
        rfl
      · rw [List.getElem?_append_right (by omega), Nat.sub_eq_zero_of_le (by omega)]
        rfl

theorem take_eq_of_byteAt {a b : Line} {d : Nat} (ha : d ≤ a.length) (hb : d ≤ b.length)
    (h : ∀ t, t < d → byteAt a t = byteAt b t) : a.take d = b.take d := by
  apply List.ext_getElem
  · simp [Nat.min_eq_left ha, Nat.min_eq_left hb]
  · intro t h1 h2
    have ht : t < d := by
      rw [List.length_take] at h1
      omega
    have h3 := h t ht
    unfold byteAt at h3
    rw [List.getD_eq_getElem _ _ (by omega : t < a.length),
      List.getD_eq_getElem _ _ (by omega : t < b.length)] at h3
    simpa using h3

theorem bracket_top (pl : PartitionList) (key : Line) : Bracket pl key 0 0 pl.length :=
  ⟨Nat.zero_le _, le_refl _, fun i hi => absurd hi (Nat.not_lt_zero i),
    fun i h1 h2 => absurd h2 (by omega), fun i _ _ t ht => absurd ht (Nat.not_lt_zero t)⟩

theorem buildTrie_bracket (pl : PartitionList) (keySize maxDepth : Nat) (key pre : Line)
    (hsorted : pl.Pairwise (fun a b => cmpKey b a keySize = false)) (hks : maxDepth ≤ keySize)
    (hpre : maxDepth ≤ pre.length) :
    ∃ lev lo up, (buildTrie pl 0 pl.length pre 0 maxDepth).1.leafOf key = some (lev, lo, up) ∧
      Bracket pl key lev lo up ∧ lev ≤ maxDepth := by
  unfold buildTrie
  obtain ⟨lev, lo, up, h1, h2, _, h4⟩ := buildTrieAux_bracket pl key maxDepth
    (sortedUpTo_mono (sortedUpTo_of_pairwise hsorted) hks) (maxDepth - 0) 0 0 pl.length pre
    (bracket_top pl key) (fun t ht => absurd ht (Nat.not_lt_zero t)) hpre
  exact ⟨lev, lo, up, h1, h2, by omega⟩

/-! ### The partition id of a key -/

theorem leafScan_spec (pl : PartitionList) (keySize : Nat) (key : Line) (up fuel lo : Nat)
    (hf : up - lo ≤ fuel) (hlu : lo ≤ up) :
    lo ≤ leafScan pl keySize key up fuel lo ∧ leafScan pl keySize key up fuel lo ≤ up ∧
      (∀ i, lo ≤ i → i < leafScan pl keySize key up fuel lo →
        cmpKey (pl.getD i []) key keySize = true) ∧
      (leafScan pl keySize key up fuel lo < up →
        cmpKey (pl.getD (leafScan pl keySize key up fuel lo) []) key keySize = false) := by
  induction fuel generalizing lo with
  | zero =>
    rw [leafScan]
    exact ⟨hlu, le_refl _, fun i h1 h2 => by omega, fun h => absurd h (lt_irrefl _)⟩
  | succ fuel ih =>
    rw [leafScan]
    by_cases h1 : lo < up
    · rw [if_pos h1]
      by_cases h2 : cmpKey (pl.getD lo []) key keySize = true
      · rw [if_pos h2]
        obtain ⟨g1, g2, g3, g4⟩ := ih (lo + 1) (by omega) h1
        refine ⟨by omega, g2, fun i hi1 hi2 => ?_, g4⟩
        rcases Nat.eq_or_lt_of_le hi1 with h3 | h3
        · rw [← h3]
          exact h2
        · exact g3 i h3 hi2
      · rw [if_neg h2]
        exact ⟨le_refl _, le_of_lt h1, fun i hi1 hi2 => by omega,
          fun _ => by simpa using h2⟩
    · rw [if_neg h1]
      exact ⟨hlu, le_refl _, fun i hi1 hi2 => by omega, fun h => absurd h (lt_irrefl _)⟩

theorem isRank_of_bracket (pl : PartitionList) (keySize : Nat) (key : Line) (lev lo up : Nat)
    (hB : Bracket pl key lev lo up) (hlev : lev ≤ keySize) :
    IsRank pl keySize key (leafScan pl keySize key up (up - lo) lo) := by
  obtain ⟨hB1, hB2, hB3, hB4, _⟩ := hB
  obtain ⟨g1, g2, g3, g4⟩ := leafScan_spec pl keySize key up (up - lo) lo (le_refl _) hB1
  refine ⟨by omega, fun i hi => ?_, fun hr => ?_⟩
  · by_cases h1 : i < lo
    · exact cmpKey_mono (hB3 i h1) hlev
    · exact g3 i (by omega) hi
  · by_cases h1 : leafScan pl keySize key up (up - lo) lo < up
    · exact g4 h1
    · exact cmpKey_asymm (cmpKey_mono (hB4 _ (by omega) hr) hlev)

theorem isRank_mono (pl : PartitionList) (keySize : Nat) (k1 k2 : Line) (r1 r2 : Nat)
    (h1 : IsRank pl keySize k1 r1) (h2 : IsRank pl keySize k2 r2)
    (hle : cmpKey k2 k1 keySize = false) : r1 ≤ r2 := by
  by_contra hc
  have h3 := h2.2.2 (by have := h1.1; omega)
  have h4 := h1.2.1 r2 (by omega)
  rw [cmpKey_lt_of_lt_of_le h4 hle] at h3
  exact Bool.noConfusion h3

theorem isRank_lt (pl : PartitionList) (keySize : Nat) (k1 k2 : Line) (r1 r2 : Nat)
    (h1 : IsRank pl keySize k1 r1) (h2 : IsRank pl keySize k2 r2) (hlt : r1 < r2) :
    cmpKey k1 k2 keySize = true :=
  cmpKey_lt_of_le_of_lt (h1.2.2 (by have := h2.1; omega)) (h2.2.1 r1 hlt)

theorem findPartition_isRank (pl : PartitionList) (keySize maxDepth : Nat) (key pre : Line)
    (hsorted : pl.Pairwise (fun a b => cmpKey b a keySize = false)) (hks : maxDepth ≤ keySize)
    (hpre : maxDepth ≤ pre.length) :
    ∃ r, (buildTrie pl 0 pl.length pre 0 maxDepth).1.findPartition pl keySize key = some r ∧
      IsRank pl keySize key r := by
  obtain ⟨lev, lo, up, h1, h2, h3⟩ := buildTrie_bracket pl keySize maxDepth key pre hsorted hks
    hpre
  refine ⟨leafScan pl keySize key up (up - lo) lo, ?_,
    isRank_of_bracket pl keySize key lev lo up h2 (le_trans h3 hks)⟩
  unfold TrieNode.findPartition
  rw [h1]

theorem isRank_unique (pl : PartitionList) (keySize : Nat) (key : Line) (r1 r2 : Nat)
    (h1 : IsRank pl keySize key r1) (h2 : IsRank pl keySize key r2) : r1 = r2 :=
  le_antisymm (isRank_mono pl keySize key key r1 r2 h1 h2 (cmpKey_irrefl key keySize))
    (isRank_mono pl keySize key key r2 r1 h2 h1 (cmpKey_irrefl key keySize))

/-! ## The claims on the partition trie -/

/-- Claim C9: for a boundary list sorted ascending, the leaf reached by descending the
trie `buildTrie(boundaries, 0, size, prefix, 0, maxDepth)` along the bytes of a key has a
depth `lev <= maxDepth` and a range `[lo, up)` with `lo <= up <= size` such that the
boundaries before `lo` are strictly below the key on the first `lev` bytes, those from `up`
on are strictly above it, and those of `[lo, up)` equal it on the first `lev` bytes. A
leaf is returned exactly when `prefixSize >= maxDepth` or `lower == upper`; otherwise the
node is inner with 256 children whose ranges, in byte order, tile the parent's range. -/
theorem leaf_range_brackets_key (pl : PartitionList) (keySize maxDepth : Nat) (key pre : Line)
    (hsorted : pl.Pairwise (fun a b => cmpKey b a keySize = false))
    (hks : maxDepth ≤ keySize) (hbl : ∀ b ∈ pl, keySize ≤ b.length)
    (hkey : maxDepth ≤ key.length) (hpre : maxDepth ≤ pre.length) :
    (∃ lev lo up, (buildTrie pl 0 pl.length pre 0 maxDepth).1.leafOf key = some (lev, lo, up) ∧
        lev ≤ maxDepth ∧ lo ≤ up ∧ up ≤ pl.length ∧
        (∀ i (hi : i < pl.length), i < lo → cmpKey pl[i] key lev = true) ∧
        (∀ i (hi : i < pl.length), up ≤ i → cmpKey key pl[i] lev = true) ∧
        (∀ i (hi : i < pl.length), lo ≤ i → i < up → pl[i].take lev = key.take lev)) ∧
      (∀ lower upper p d, (d ≥ maxDepth ∨ lower = upper) →
        (buildTrie pl lower upper p d maxDepth).1 = .leaf d lower upper) ∧
      (∀ lower upper p d, ¬ (d ≥ maxDepth ∨ lower = upper) → lower ≤ upper →
        ∃ children cuts, (buildTrie pl lower upper p d maxDepth).1 = .inner d children ∧
          children.length = 256 ∧ List.length cuts = 257 ∧ cuts[0]? = some lower ∧
          cuts[256]? = some upper ∧
          ∀ c, c < 256 → ∃ l u q, cuts[c]? = some l ∧ cuts[c + 1]? = some u ∧ l ≤ u ∧
            children[c]? = some (buildTrie pl l u q (d + 1) maxDepth).1) := by
  refine ⟨?_, ?_, ?_⟩
  · obtain ⟨lev, lo, up, h1, ⟨h2, h3, h4, h5, h6⟩, h7⟩ :=
      buildTrie_bracket pl keySize maxDepth key pre hsorted hks hpre
    refine ⟨lev, lo, up, h1, h7, h2, h3, ?_, ?_, ?_⟩
    · intro i hi hlo
      have := h4 i hlo
      rwa [List.getD_eq_getElem _ _ hi] at this
    · intro i hi hup
      have := h5 i hup hi
      rwa [List.getD_eq_getElem _ _ hi] at this
    · intro i hi hlo hup
      have := h6 i hlo hup
      rw [List.getD_eq_getElem _ _ hi] at this
      exact take_eq_of_byteAt
        (le_trans h7 (le_trans hks (hbl _ (List.getElem_mem hi)))) (le_trans h7 hkey) this
  · intro lower upper p d h
    rw [buildTrie_leaf_case pl lower upper p d maxDepth h]
  · intro lower upper p d h hlu
    exact buildTrie_inner_case pl lower upper p d maxDepth h hlu

theorem leaf_range_brackets_key_witness :
    ([[77, 0], [84, 0]] : PartitionList).Pairwise (fun a b => cmpKey b a 1 = false) ∧
      ∃ lev lo up,
        (buildTrie [[77, 0], [84, 0]] 0 ([[77, 0], [84, 0]] : PartitionList).length [0] 0
          1).1.leafOf [78] = some (lev, lo, up) ∧
        lev ≤ 1 ∧ lo ≤ up ∧ up ≤ ([[77, 0], [84, 0]] : PartitionList).length :=
  ⟨by decide, by
    obtain ⟨lev, lo, up, h1, h2, h3, h4, _⟩ :=
      (leaf_range_brackets_key [[77, 0], [84, 0]] 1 1 [78] [0] (by decide) (by decide)
        (by decide) (by decide) (by decide)).1
    exact ⟨lev, lo, up, h1, h2, h3, h4⟩⟩

/-- Claim C8: two calls `buildTrie(boundaries, 0, size, prefix, 0, maxDepth)` return
structurally identical tries whatever the scratch buffers hold on entry (the two buffers
have the same size, `keySize` bytes in `execMap`), so both tries give every key the same
partition. -/
theorem buildTrie_idempotent (pl : PartitionList) (maxDepth : Nat) (p q : Line)
    (hpq : p.length = q.length) :
    (buildTrie pl 0 pl.length p 0 maxDepth).1 = (buildTrie pl 0 pl.length q 0 maxDepth).1 ∧
      ∀ (keySize : Nat) (key : Line),
        (buildTrie pl 0 pl.length p 0 maxDepth).1.findPartition pl keySize key =
          (buildTrie pl 0 pl.length q 0 maxDepth).1.findPartition pl keySize key := by
  have h : (buildTrie pl 0 pl.length p 0 maxDepth).1 =
      (buildTrie pl 0 pl.length q 0 maxDepth).1 := by
    unfold buildTrie
    exact buildTrieAux_congr pl maxDepth _ 0 0 pl.length p q
      ⟨hpq, fun t ht => absurd ht (Nat.not_lt_zero t)⟩
  exact ⟨h, fun keySize key => by rw [h]⟩

theorem buildTrie_idempotent_witness :
    ([11, 22] : Line).length = ([33, 44] : Line).length ∧
      (buildTrie [[77, 0, 0], [84, 0, 0]] 0 ([[77, 0, 0], [84, 0, 0]] : PartitionList).length
        [11, 22] 0 2).1 =
      (buildTrie [[77, 0, 0], [84, 0, 0]] 0 ([[77, 0, 0], [84, 0, 0]] : PartitionList).length
        [33, 44] 0 2).1 :=
  ⟨by decide, (buildTrie_idempotent [[77, 0, 0], [84, 0, 0]] 2 [11, 22] [33, 44] (by decide)).1⟩

theorem isRank_MT (m1 m2 k : Byte) (r : Nat)
    (h : r ≤ 2 ∧ (0 < r → (77 : Byte) < k) ∧ (1 < r → (84 : Byte) < k) ∧
      (r < 1 → ¬ (77 : Byte) < k) ∧ (r < 2 → 0 < r → ¬ (84 : Byte) < k)) :
    IsRank [[77, m1], [84, m2]] 1 [k] r := by
  obtain ⟨h1, h2, h3, h4, h5⟩ := h
  have c1 : cmpKey [77, m1] [k] 1 = decide ((77 : Byte) < k) := by
    simp [cmpKey, cmpKeyFrom, byteAt]
  have c2 : cmpKey [84, m2] [k] 1 = decide ((84 : Byte) < k) := by
    simp [cmpKey, cmpKeyFrom, byteAt]
  refine ⟨h1, ?_, ?_⟩
  · intro i hi
    have hi2 : i = 0 ∨ i = 1 := by omega
    rcases hi2 with hi2 | hi2
    · subst hi2
      simpa [c1] using h2 hi
    · subst hi2
      simpa [c2] using h3 hi
  · intro hr
    have hr2 : r = 0 ∨ r = 1 := by
      simp only [List.length_cons, List.length_nil] at hr
      omega
    rcases hr2 with hr2 | hr2
    · subst hr2
      simpa [c1] using h4 (by omega)
    · subst hr2
      simpa [c2] using h5 (by omega) (by omega)

/-- Claim C2: with `numReducer = 3`, single-byte keys, the boundary list `["M", "T"]`
(each boundary buffer holding its key byte and one marker byte) and the trie built by
`buildTrie(boundaries, 0, 2, prefix, 0, 1)`, the records of keys `A, M, N, T, Z` classify
to the partitions `0, 0, 1, 1, 2`: a key equal to a boundary falls in the lower
partition. -/
theorem round_consistency (m1 m2 b : Byte) :
    List.map
        (fun k => (buildTrie [[77, m1], [84, m2]] 0 2 [b] 0 1).1.findPartition
          [[77, m1], [84, m2]] 1 k)
        [[65], [77], [78], [84], [90]] =
      [some 0, some 0, some 1, some 1, some 2] := by
  have hs : ([[77, m1], [84, m2]] : PartitionList).Pairwise
      (fun x y => cmpKey y x 1 = false) := by
    simp [cmpKey, cmpKeyFrom, byteAt]
  have key : ∀ (k : Byte) (r : Nat),
      (r ≤ 2 ∧ (0 < r → (77 : Byte) < k) ∧ (1 < r → (84 : Byte) < k) ∧
        (r < 1 → ¬ (77 : Byte) < k) ∧ (r < 2 → 0 < r → ¬ (84 : Byte) < k)) →
      (buildTrie [[77, m1], [84, m2]] 0 2 [b] 0 1).1.findPartition [[77, m1], [84, m2]] 1 [k] =
        some r := by
    intro k r h
    obtain ⟨r2, g1, g2⟩ := findPartition_isRank [[77, m1], [84, m2]] 1 1 [k] [b] hs
      (le_refl _) (by simp)
    have g3 := isRank_unique _ _ _ _ _ g2 (isRank_MT m1 m2 k r h)
    rw [← g3]
    exact g1
  simp only [List.map_cons, List.map_nil]
  rw [key 65 0 (by decide), key 77 0 (by decide), key 78 1 (by decide), key 84 1 (by decide),
    key 90 2 (by decide)]

/-! ## The map phase -/

theorem shardNumLine_of_lt (S lineSize : Nat) (h : S < 2147483648) :
    shardNumLine S lineSize = S / lineSize := by
  unfold shardNumLine toUnsignedLong toInt32
  have h1 : S % 4294967296 = S := Nat.mod_eq_of_lt (by omega)
  rw [h1, if_pos h]
  have h2 : ((S : Int) % 18446744073709551616).toNat = S := by omega
  rw [h2]

theorem readLine_length (file : List Byte) (lineSize pos : Nat) :
    (readLine file lineSize pos).length = lineSize := by
  simp [readLine]

theorem readLine_eq_take_drop (file : List Byte) (lineSize pos : Nat)
    (h : pos + lineSize ≤ file.length) :
    readLine file lineSize pos = (file.drop pos).take lineSize := by
  apply List.ext_getElem
  · simp [readLine]
    omega
  · intro j h1 h2
    have hj : j < lineSize := by simpa [readLine] using h1
    simp only [readLine, List.getElem_map, List.getElem_range, List.getElem_take,
      List.getElem_drop]
    rw [List.getD_eq_getElem _ _ (by omega : pos + j < file.length)]

theorem shardLines_of_lt (bytes : List Byte) (lineSize : Nat)
    (hsize : bytes.length < 2147483648) :
    shardLines bytes lineSize (shardNumLine bytes.length lineSize) =
      (List.range (bytes.length / lineSize)).map
        (fun i => (bytes.drop (i * lineSize)).take lineSize) := by
  rw [shardNumLine_of_lt _ _ hsize]
  unfold shardLines
  apply List.map_congr_left
  intro i hi
  rw [List.mem_range] at hi
  apply readLine_eq_take_drop
  have h5 : (i + 1) * lineSize ≤ bytes.length / lineSize * lineSize :=
    Nat.mul_le_mul_right _ hi
  have h6 := Nat.div_mul_le_self bytes.length lineSize
  rw [Nat.add_mul, Nat.one_mul] at h5
  omega

theorem mem_shardLines_length (file : List Byte) (lineSize numLine : Nat) (x : Line)
    (h : x ∈ shardLines file lineSize numLine) : x.length = lineSize := by
  unfold shardLines at h
  rw [List.mem_map] at h
  obtain ⟨i, _, hi⟩ := h
  rw [← hi]
  exact readLine_length _ _ _

theorem pushBack_spec (pc : List LineList) (w : Nat) (x : Line) (hw : w < pc.length) :
    ∃ pc2, pushBack pc w x = some pc2 ∧ pc2.length = pc.length ∧
      (∀ v, pc2.getD v [] = if v = w then pc.getD v [] ++ [x] else pc.getD v []) ∧
      pc2.flatten.Perm (pc.flatten ++ [x]) := by
  induction pc generalizing w with
  | nil => simp at hw
  | cons b bs ih =>
    cases w with
    | zero =>
      refine ⟨(b ++ [x]) :: bs, by rw [pushBack], rfl, ?_, ?_⟩
      · intro v
        cases v with
        | zero => simp
        | succ v => simp
      · simp only [List.flatten_cons, List.append_assoc]
        exact List.Perm.append_left b List.perm_append_comm
    | succ w =>
      obtain ⟨r, h1, h2, h3, h4⟩ := ih w (by simpa using hw)
      refine ⟨b :: r, by rw [pushBack, h1], by simp [h2], ?_, ?_⟩
      · intro v
        cases v with
        | zero => simp
        | succ v =>
          have := h3 v
          simpa using this
      · simp only [List.flatten_cons, List.append_assoc]
        exact List.Perm.append_left b h4

theorem pushBack_some (pc : List LineList) (w : Nat) (x : Line) (pc2 : List LineList)
    (h : pushBack pc w x = some pc2) : w < pc.length := by
  induction pc generalizing w pc2 with
  | nil => simp [pushBack] at h
  | cons b bs ih =>
    cases w with
    | zero => simp
    | succ w =>
      rw [pushBack] at h
      cases hr : pushBack bs w x with
      | none => simp [hr] at h
      | some r =>
        have := ih w r hr
        simp only [List.length_cons]
        omega

theorem classify_spec (find : Line → Option Nat) (rs : LineList) (pc : List LineList)
    (h : ∀ r ∈ rs, ∃ w, find r = some w ∧ w < pc.length) :
    ∃ pc2, classify find rs pc = some pc2 ∧ pc2.length = pc.length ∧
      (∀ v, pc2.getD v [] = pc.getD v [] ++ rs.filter (fun r => decide (find r = some v))) ∧
      pc2.flatten.Perm (pc.flatten ++ rs) := by
  induction rs generalizing pc with
  | nil => exact ⟨pc, by rw [classify], rfl, fun v => by simp, by simp⟩
  | cons r rs ih =>
    obtain ⟨w, hw1, hw2⟩ := h r (List.mem_cons_self _ _)
    obtain ⟨pc1, g1, g2, g3, g4⟩ := pushBack_spec pc w r hw2
    obtain ⟨pc2, k1, k2, k3, k4⟩ := ih pc1 (fun y hy => by
      obtain ⟨v, hv1, hv2⟩ := h y (List.mem_cons_of_mem _ hy)
      exact ⟨v, hv1, by omega⟩)
    refine ⟨pc2, by rw [classify, hw1]; simp only [g1]; exact k1, by omega, ?_, ?_⟩
    · intro v
      rw [k3 v, g3 v]
      by_cases hv : v = w
      · subst hv
        simp [hw1]
      · have hne : ¬ find r = some v := by
          rw [hw1]
          intro hc
          exact hv (Option.some.inj hc).symm
        simp [hv, hne]
    · refine k4.trans ?_
      refine (List.Perm.append_right rs g4).trans ?_
      simp

theorem classify_some (find : Line → Option Nat) (rs : LineList) (pc pc2 : List LineList)
    (h : classify find rs pc = some pc2) :
    ∀ r ∈ rs, ∃ w, find r = some w ∧ w < pc.length := by
  induction rs generalizing pc with
  | nil => intro r hr; simp at hr
  | cons r rs ih =>
    rw [classify] at h
    cases hf : find r with
    | none => simp [hf] at h
    | some w =>
      simp only [hf] at h
      cases hp : pushBack pc w r with
      | none => simp [hp] at h
      | some pc1 =>
        simp only [hp] at h
        have hw := pushBack_some pc w r pc1 hp
        obtain ⟨pc1b, e1, e2, _⟩ := pushBack_spec pc w r hw
        rw [hp] at e1
        cases e1
        intro y hy
        rcases List.mem_cons.mp hy with hy | hy
        · subst hy
          exact ⟨w, hf, hw⟩
        · obtain ⟨v, hv1, hv2⟩ := ih pc1 h y hy
          exact ⟨v, hv1, by omega⟩

/-- Claim C1: for a boundary list of `numReducer - 1` keys sorted ascending and
`keySize >= maxDepth`, looking a key up in the trie
`buildTrie(boundaries, 0, numReducer - 1, prefix, 0, maxDepth)` returns one partition id,
below `numReducer`, and the id is monotone: `k1 <= k2` in the unsigned lexicographic order
of the first `keySize` bytes gives `id k1 <= id k2`. With the depth 2 of `execMap`, the map
loop therefore completes on every shard: `partitionCollection.at(wid)` never misses. -/
theorem partition_total_monotone (pl : PartitionList) (numReducer keySize maxDepth : Nat)
    (pre : Line) (hN : 1 ≤ numReducer) (hlen : pl.length = numReducer - 1)
    (hsorted : pl.Pairwise (fun a b => cmpKey b a keySize = false))
    (hks : maxDepth ≤ keySize) (hpre : pre.length = keySize) :
    (∀ k : Line, keySize ≤ k.length →
      ∃ id, (buildTrie pl 0 (numReducer - 1) pre 0 maxDepth).1.findPartition pl keySize k =
        some id ∧ id < numReducer) ∧
      (∀ k1 k2 : Line, keySize ≤ k1.length → keySize ≤ k2.length →
        cmpKey k2 k1 keySize = false → ∀ id1 id2,
        (buildTrie pl 0 (numReducer - 1) pre 0 maxDepth).1.findPartition pl keySize k1 =
          some id1 →
        (buildTrie pl 0 (numReducer - 1) pre 0 maxDepth).1.findPartition pl keySize k2 =
          some id2 → id1 ≤ id2) ∧
      ∀ (conf : Configuration) (bytes : List Byte), conf.numReducer = numReducer →
        conf.keySize = keySize → maxDepth = 2 →
        ∃ r, execMapClassify conf pl pre (some bytes) = some r := by
  rw [← hlen]
  refine ⟨?_, ?_, ?_⟩
  · intro k _
    obtain ⟨r, h1, h2⟩ := findPartition_isRank pl keySize maxDepth k pre hsorted hks
      (by omega)
    exact ⟨r, h1, by have := h2.1; omega⟩
  · intro k1 k2 _ _ hle id1 id2 h1 h2
    obtain ⟨r1, g1, g2⟩ := findPartition_isRank pl keySize maxDepth k1 pre hsorted hks
      (by omega)
    obtain ⟨r2, g3, g4⟩ := findPartition_isRank pl keySize maxDepth k2 pre hsorted hks
      (by omega)
    rw [g1] at h1
    rw [g3] at h2
    cases h1
    cases h2
    exact isRank_mono pl keySize k1 k2 _ _ g2 g4 hle
  · intro conf bytes hc1 hc2 hm
    subst hm
    obtain ⟨pc, h1, _⟩ := classify_spec
      ((buildTrie pl 0 pl.length pre 0 2).1.findPartition pl conf.keySize)
      (shardLines bytes conf.lineSize (shardNumLine bytes.length conf.lineSize))
      (List.replicate conf.numReducer []) (fun r _ => by
        obtain ⟨w, g1, g2⟩ := findPartition_isRank pl keySize 2 r pre hsorted hks (by omega)
        refine ⟨w, by rw [hc2]; exact g1, ?_⟩
        have := g2.1
        simp only [List.length_replicate]
        omega)
    exact ⟨((buildTrie pl 0 pl.length pre 0 2).1, pc), by
      unfold execMapClassify
      simp only [h1]⟩

theorem partition_total_monotone_witness :
    ([[77, 0], [84, 0]] : PartitionList).Pairwise (fun a b => cmpKey b a 1 = false) ∧
      ∃ id, (buildTrie [[77, 0], [84, 0]] 0 (3 - 1) [0] 0 1).1.findPartition
        [[77, 0], [84, 0]] 1 [78] = some id ∧ id < 3 :=
  ⟨by decide,
    (partition_total_monotone [[77, 0], [84, 0]] 3 1 1 [0] (by decide) (by decide) (by decide)
      (by decide) (by decide)).1 [78] (by decide)⟩

theorem execMap_find_total (conf : Configuration) (pl : PartitionList) (scratch : Line)
    (wf : WellFormed conf pl) (hsc : scratch.length = conf.keySize) (x : Line) :
    ∃ w, (buildTrie pl 0 pl.length scratch 0 2).1.findPartition pl conf.keySize x = some w ∧
      w < conf.numReducer ∧ IsRank pl conf.keySize x w := by
  obtain ⟨r, h1, h2⟩ := findPartition_isRank pl conf.keySize 2 x scratch wf.sorted wf.key_ge
    (by rw [hsc]; exact wf.key_ge)
  exact ⟨r, h1, by have := h2.1; have := wf.size; have := wf.one_le; omega, h2⟩

theorem execMapClassify_spec (conf : Configuration) (pl : PartitionList) (scratch : Line)
    (wf : WellFormed conf pl) (hsc : scratch.length = conf.keySize) (bytes : List Byte) :
    ∃ pc, execMapClassify conf pl scratch (some bytes) =
        some ((buildTrie pl 0 pl.length scratch 0 2).1, pc) ∧
      pc.length = conf.numReducer ∧
      (∀ v, pc.getD v [] =
        (shardLines bytes conf.lineSize (shardNumLine bytes.length conf.lineSize)).filter
          (fun r => decide ((buildTrie pl 0 pl.length scratch 0 2).1.findPartition pl
            conf.keySize r = some v))) ∧
      pc.flatten.Perm
        (shardLines bytes conf.lineSize (shardNumLine bytes.length conf.lineSize)) := by
  obtain ⟨pc, h1, h2, h3, h4⟩ := classify_spec
    ((buildTrie pl 0 pl.length scratch 0 2).1.findPartition pl conf.keySize)
    (shardLines bytes conf.lineSize (shardNumLine bytes.length conf.lineSize))
    (List.replicate conf.numReducer []) (fun r _ => by
      obtain ⟨w, g1, g2, _⟩ := execMap_find_total conf pl scratch wf hsc r
      exact ⟨w, g1, by simpa using g2⟩)
  refine ⟨pc, ?_, by simpa using h2, ?_, ?_⟩
  · unfold execMapClassify
    simp only [h1]
  · intro v
    rw [h3 v]
    have : (List.replicate conf.numReducer ([] : LineList)).getD v [] = [] := by
      rw [List.getD_eq_getElem?_getD]
      by_cases hv : v < conf.numReducer
      · simp [List.getElem?_replicate, hv]
      · simp [List.getElem?_replicate, hv]
    rw [this, List.nil_append]
  · have hnil : (List.replicate conf.numReducer ([] : LineList)).flatten = [] := by
      induction conf.numReducer with
      | zero => rfl
      | succ n ih => simp [List.replicate_succ, ih]
    rw [hnil, List.nil_append] at h4
    exact h4

theorem sum_length_eq_length_flatten (pc : List LineList) :
    (pc.map List.length).sum = pc.flatten.length := by
  rw [List.length_flatten]

theorem execMap_of_classify (conf : Configuration) (rank : Nat) (pl : PartitionList)
    (scratch : Line) (file : Option (List Byte)) (trie : TrieNode) (pc : List LineList)
    (h : execMapClassify conf pl scratch file = some (trie, pc)) :
    execMap conf rank pl scratch file =
      some { trie := trie
             partitionCollection := releaseFrom (rank - 1) 0 pc
             partitionTxData := packFrom conf.lineSize (rank - 1) 0 pc } := by
  unfold execMap
  simp only [h]

theorem classify_of_execMap (conf : Configuration) (rank : Nat) (pl : PartitionList)
    (scratch : Line) (file : Option (List Byte)) (st : MapState)
    (h : execMap conf rank pl scratch file = some st) :
    ∃ pc, execMapClassify conf pl scratch file = some (st.trie, pc) ∧
      st.partitionCollection = releaseFrom (rank - 1) 0 pc ∧
      st.partitionTxData = packFrom conf.lineSize (rank - 1) 0 pc := by
  unfold execMap at h
  cases hc : execMapClassify conf pl scratch file with
  | none => simp [hc] at h
  | some r =>
    obtain ⟨trie, pc⟩ := r
    simp only [hc, Option.some.injEq] at h
    subst h
    exact ⟨pc, rfl, rfl, rfl⟩

/-! ## Claims C10, C5: the size of the shard -/

theorem execMapClassify_numLine_zero (conf : Configuration) (pl : PartitionList)
    (scratch : Line) (bytes : List Byte)
    (h : shardNumLine bytes.length conf.lineSize = 0) :
    execMapClassify conf pl scratch (some bytes) =
      some ((buildTrie pl 0 pl.length scratch 0 2).1, List.replicate conf.numReducer []) := by
  unfold execMapClassify
  simp only [h, shardLines, List.range_zero, List.map_nil, classify]

/-- Claim C10, at the failing input: a shard of 4294967300 bytes holds 42949673 whole
records of 100 bytes, and `execMap`, which holds the size in an `int`, computes
`numLine = 0`: the map loop does not run and the buckets stay empty. -/
theorem numLine_truncated_at_4GiB :
    4294967300 % 100 = 0 ∧ 4294967300 / 100 = 42949673 ∧ shardNumLine 4294967300 100 = 0 ∧
      (execMapClassify { numReducer := 1, keySize := 10, lineSize := 100 } []
          (List.replicate 10 0) (some (List.replicate 4294967300 0))).map
        (fun r => (r.2.map List.length).sum) = some 0 := by
  have h0 : shardNumLine 4294967300 100 = 0 := by decide
  refine ⟨by decide, by decide, h0, ?_⟩
  rw [execMapClassify_numLine_zero _ _ _ _ (by rw [List.length_replicate]; exact h0)]
  rfl

/-- Claim C5, refuted as stated: on a shard of 3 bytes with `lineSize = 2`, `execMap`
does not abort; it classifies the one whole record and ignores the trailing byte. -/
theorem partial_record_not_rejected :
    3 % 2 ≠ 0 ∧
      (execMap { numReducer := 1, keySize := 2, lineSize := 2 } 1 [] [0, 0]
          (some [1, 2, 3])).map (fun st => st.partitionCollection) = some [some [[1, 2]]] := by
  decide

/-- Claim C5, amended: for a well-formed job and a shard of less than `2^31` bytes whose
size is not a multiple of `lineSize`, `execMap` does not abort: the buckets hold, up to
order, the `size / lineSize` whole leading records of the shard, and the trailing
`size % lineSize` bytes are in no record. -/
theorem execMap_ignores_partial_record (conf : Configuration) (rank : Nat)
    (pl : PartitionList) (scratch : Line) (bytes : List Byte) (wf : WellFormed conf pl)
    (hsc : scratch.length = conf.keySize) (hsize : bytes.length < 2147483648)
    (hpart : bytes.length % conf.lineSize ≠ 0) :
    ∃ st pc, execMap conf rank pl scratch (some bytes) = some st ∧
      execMapClassify conf pl scratch (some bytes) = some (st.trie, pc) ∧
      (pc.map List.length).sum = bytes.length / conf.lineSize ∧
      pc.flatten.Perm ((List.range (bytes.length / conf.lineSize)).map
        (fun i => (bytes.drop (i * conf.lineSize)).take conf.lineSize)) ∧
      bytes.length / conf.lineSize * conf.lineSize < bytes.length := by
  obtain ⟨pc, h1, _, _, h4⟩ := execMapClassify_spec conf pl scratch wf hsc bytes
  rw [shardLines_of_lt _ _ hsize] at h4
  refine ⟨_, pc, execMap_of_classify conf rank pl scratch _ _ pc h1, h1, ?_, h4, ?_⟩
  · rw [sum_length_eq_length_flatten, h4.length_eq]
    simp
  · have h7 := Nat.div_add_mod bytes.length conf.lineSize
    have h8 : conf.lineSize * (bytes.length / conf.lineSize) =
        bytes.length / conf.lineSize * conf.lineSize := Nat.mul_comm _ _
    omega

theorem execMap_ignores_partial_record_witness :
    WellFormed { numReducer := 1, keySize := 2, lineSize := 2 } [] ∧
      ([1, 2, 3] : List Byte).length % 2 ≠ 0 ∧
      ∃ st pc, execMap { numReducer := 1, keySize := 2, lineSize := 2 } 1 [] [0, 0]
          (some [1, 2, 3]) = some st ∧
        execMapClassify { numReducer := 1, keySize := 2, lineSize := 2 } [] [0, 0]
          (some [1, 2, 3]) = some (st.trie, pc) ∧
        (pc.map List.length).sum = ([1, 2, 3] : List Byte).length / 2 ∧
        pc.flatten.Perm ((List.range (([1, 2, 3] : List Byte).length / 2)).map
          (fun i => (([1, 2, 3] : List Byte).drop (i * 2)).take 2)) ∧
        ([1, 2, 3] : List Byte).length / 2 * 2 < ([1, 2, 3] : List Byte).length :=
  ⟨⟨by decide, by decide, by decide, by decide, by decide, by decide⟩, by decide,
    execMap_ignores_partial_record { numReducer := 1, keySize := 2, lineSize := 2 } 1 []
      [0, 0] [1, 2, 3] ⟨by decide, by decide, by decide, by decide, by decide, by decide⟩
      (by decide) (by decide) (by decide)⟩

/-! ## Claim C6: the pack loop -/

theorem packLines_eq_flatten (lineSize : Nat) (b : LineList)
    (h : ∀ r ∈ b, r.length = lineSize) : packLines lineSize b = b.flatten := by
  induction b with
  | nil => rfl
  | cons r rs ih =>
    rw [packLines, List.flatten_cons, ih (fun x hx => h x (List.mem_cons_of_mem _ hx)),
      List.take_of_length_le (le_of_eq (h r (List.mem_cons_self _ _)))]

theorem map_take_eq_self (lineSize : Nat) (b : LineList)
    (h : ∀ r ∈ b, r.length = lineSize) : b.map (fun r => r.take lineSize) = b := by
  induction b with
  | nil => rfl
  | cons r rs ih =>
    rw [List.map_cons, ih (fun x hx => h x (List.mem_cons_of_mem _ hx)),
      List.take_of_length_le (le_of_eq (h r (List.mem_cons_self _ _)))]

theorem packFrom_get (lineSize self i : Nat) (pc : List LineList) (k : Nat)
    (hk : k < pc.length) :
    (packFrom lineSize self i pc)[k]? =
      some (if i + k = self then none else some (packBucket lineSize (pc.getD k []))) := by
  induction pc generalizing i k with
  | nil => simp at hk
  | cons b bs ih =>
    cases k with
    | zero => simp [packFrom]
    | succ k =>
      rw [packFrom, List.getElem?_cons_succ, ih (i + 1) k (by simpa using hk)]
      have e : i + 1 + k = i + (k + 1) := by omega
      rw [e]
      simp

theorem packFrom_length (lineSize self i : Nat) (pc : List LineList) :
    (packFrom lineSize self i pc).length = pc.length := by
  induction pc generalizing i with
  | nil => rfl
  | cons b bs ih => simp [packFrom, ih]

theorem releaseFrom_get (self i : Nat) (pc : List LineList) (k : Nat) (hk : k < pc.length) :
    (releaseFrom self i pc)[k]? =
      some (if i + k = self then some (pc.getD k []) else none) := by
  induction pc generalizing i k with
  | nil => simp at hk
  | cons b bs ih =>
    cases k with
    | zero => simp [releaseFrom]
    | succ k =>
      rw [releaseFrom, List.getElem?_cons_succ, ih (i + 1) k (by simpa using hk)]
      have e : i + 1 + k = i + (k + 1) := by omega
      rw [e]
      simp

theorem releaseFrom_length (self i : Nat) (pc : List LineList) :
    (releaseFrom self i pc).length = pc.length := by
  induction pc generalizing i with
  | nil => rfl
  | cons b bs ih => simp [releaseFrom, ih]

theorem flatten_length_of_lines (lineSize : Nat) (b : LineList)
    (h : ∀ r ∈ b, r.length = lineSize) : b.flatten.length = b.length * lineSize := by
  induction b with
  | nil => simp
  | cons r rs ih =>
    rw [List.flatten_cons, List.length_append, ih (fun x hx => h x (List.mem_cons_of_mem _ hx)),
      h r (List.mem_cons_self _ _), List.length_cons, Nat.add_mul, Nat.one_mul, Nat.add_comm]

theorem unpackData_zero (lineSize : Nat) (data : List Byte) :
    unpackData lineSize { data := data, numLine := 0 } = [] := by
  simp [unpackData]

/-- Claim C6: after `execMap` on the worker `rank` of a well-formed job, for every
partition id `i` other than `rank - 1` the entry `partitionTxData[i]` has `numLine` equal
to the number of shard records classified to `i` and `data` equal to the concatenation of
those records in input order, `numLine * lineSize` bytes; the bucket `rank - 1` is not
packed and keeps its records in input order. A partition that received no record is
packed as count `0` with no payload, and unpacking a count-0 buffer yields no record. -/
theorem pack_spec (conf : Configuration) (rank : Nat) (pl : PartitionList) (scratch : Line)
    (bytes : List Byte) (wf : WellFormed conf pl) (hsc : scratch.length = conf.keySize)
    (hrank : 1 ≤ rank ∧ rank ≤ conf.numReducer) :
    ∃ st, execMap conf rank pl scratch (some bytes) = some st ∧
      (∀ i, i < conf.numReducer → i ≠ rank - 1 →
        ∃ tx, st.partitionTxData[i]? = some (some tx) ∧
          tx.numLine =
            ((shardLines bytes conf.lineSize (shardNumLine bytes.length conf.lineSize)).filter
              (fun r => decide (st.trie.findPartition pl conf.keySize r = some i))).length ∧
          tx.data =
            ((shardLines bytes conf.lineSize (shardNumLine bytes.length conf.lineSize)).filter
              (fun r => decide (st.trie.findPartition pl conf.keySize r = some i))).flatten ∧
          tx.data.length = tx.numLine * conf.lineSize ∧
          (tx.numLine = 0 → tx.data = [])) ∧
      st.partitionTxData[rank - 1]? = some none ∧
      st.partitionCollection[rank - 1]? = some (some
        ((shardLines bytes conf.lineSize (shardNumLine bytes.length conf.lineSize)).filter
          (fun r => decide (st.trie.findPartition pl conf.keySize r = some (rank - 1))))) ∧
      ∀ data, unpackData conf.lineSize { data := data, numLine := 0 } = [] := by
  obtain ⟨pc, h1, h2, h3, _⟩ := execMapClassify_spec conf pl scratch wf hsc bytes
  refine ⟨_, execMap_of_classify conf rank pl scratch _ _ pc h1, ?_, ?_, ?_,
    unpackData_zero conf.lineSize⟩
  · intro i hi hne
    have hlen : ∀ r ∈ pc.getD i [], r.length = conf.lineSize := by
      intro r hr
      rw [h3 i] at hr
      exact mem_shardLines_length _ _ _ r (List.mem_of_mem_filter hr)
    refine ⟨packBucket conf.lineSize (pc.getD i []), ?_, ?_, ?_, ?_, ?_⟩
    · show (packFrom conf.lineSize (rank - 1) 0 pc)[i]? = _
      rw [packFrom_get _ _ _ _ _ (by omega), Nat.zero_add, if_neg hne]
    · show (pc.getD i []).length = _
      rw [h3 i]
    · show packLines conf.lineSize (pc.getD i []) = _
      rw [packLines_eq_flatten _ _ hlen, h3 i]
    · show (packLines conf.lineSize (pc.getD i [])).length =
        (pc.getD i []).length * conf.lineSize
      rw [packLines_eq_flatten _ _ hlen]
      exact flatten_length_of_lines _ _ hlen
    · intro h0
      have h4 : pc.getD i [] = [] := List.length_eq_zero.mp h0
      show packLines conf.lineSize (pc.getD i []) = []
      rw [h4]
      rfl
  · show (packFrom conf.lineSize (rank - 1) 0 pc)[rank - 1]? = _
    rw [packFrom_get _ _ _ _ _ (by omega), Nat.zero_add, if_pos rfl]
  · show (releaseFrom (rank - 1) 0 pc)[rank - 1]? = _
    rw [releaseFrom_get _ _ _ _ (by omega), Nat.zero_add, if_pos rfl, h3 (rank - 1)]

theorem pack_spec_witness :
    WellFormed { numReducer := 2, keySize := 2, lineSize := 3 } [[77, 0, 0]] ∧
      ∃ st, execMap { numReducer := 2, keySize := 2, lineSize := 3 } 1 [[77, 0, 0]] [0, 0]
          (some [90, 1, 1, 65, 2, 2, 91, 3, 3]) = some st ∧
        st.partitionTxData[1 - 1]? = some none :=
  ⟨⟨by decide, by decide, by decide, by decide, by decide, by decide⟩, by
    obtain ⟨st, h1, _, h3, _⟩ := pack_spec { numReducer := 2, keySize := 2, lineSize := 3 } 1
      [[77, 0, 0]] [0, 0] [90, 1, 1, 65, 2, 2, 91, 3, 3]
      ⟨by decide, by decide, by decide, by decide, by decide, by decide⟩ (by decide)
      (by decide)
    exact ⟨st, h1, h3⟩⟩

/-! ## Claim C7: the rounds of the shuffle -/

theorem sendLoop_sendDests (lineSize i : Nat) (tx : List (Option TxData)) (n j : Nat) :
    sendDests (sendLoop lineSize i tx n j) = (List.range' j n).filter (fun d => decide (d ≠ i)) := by
  induction n generalizing j with
  | zero => rfl
  | succ n ih =>
    rw [sendLoop, List.range'_succ]
    by_cases h : j = i
    · rw [if_pos h, ih]
      simp [h]
    · rw [if_neg h]
      simp only [sendDests, List.filterMap_cons] at ih ⊢
      rw [ih]
      simp [h]

theorem sendLoop_countDests (lineSize i : Nat) (tx : List (Option TxData)) (n j : Nat) :
    countDests (sendLoop lineSize i tx n j) = (List.range' j n).filter (fun d => decide (d ≠ i)) := by
  induction n generalizing j with
  | zero => rfl
  | succ n ih =>
    rw [sendLoop, List.range'_succ]
    by_cases h : j = i
    · rw [if_pos h, ih]
      simp [h]
    · rw [if_neg h]
      simp only [countDests, List.filterMap_cons] at ih ⊢
      rw [ih]
      simp [h]

theorem sendLoop_no_recv (lineSize i : Nat) (tx : List (Option TxData)) (n j : Nat) :
    recvSrcs (sendLoop lineSize i tx n j) = [] ∧ recvCountSrcs (sendLoop lineSize i tx n j) = [] ∧
      barrierCount (sendLoop lineSize i tx n j) = 0 := by
  induction n generalizing j with
  | zero => exact ⟨rfl, rfl, rfl⟩
  | succ n ih =>
    rw [sendLoop]
    by_cases h : j = i
    · rw [if_pos h]
      exact ih (j + 1)
    · rw [if_neg h]
      obtain ⟨h1, h2, h3⟩ := ih (j + 1)
      refine ⟨?_, ?_, ?_⟩
      · simpa [recvSrcs] using h1
      · simpa [recvCountSrcs] using h2
      · simpa [barrierCount, List.count_cons] using h3

theorem sendLoop_payload (lineSize i : Nat) (tx : List (Option TxData)) (n j : Nat) (e : Event)
    (he : e ∈ sendLoop lineSize i tx n j) :
    ∃ d, d ≠ i ∧ (e = Event.sendNumLine d (transfer lineSize (txFor tx d)).numLine ∨
      e = Event.sendData d (transfer lineSize (txFor tx d)).data) := by
  induction n generalizing j with
  | zero => simp [sendLoop] at he
  | succ n ih =>
    rw [sendLoop] at he
    by_cases h : j = i
    · rw [if_pos h] at he
      exact ih (j + 1) he
    · rw [if_neg h] at he
      rcases List.mem_cons.mp he with h1 | h1
      · exact ⟨j, h, Or.inl h1⟩
      · rcases List.mem_cons.mp h1 with h2 | h2
        · exact ⟨j, h, Or.inr h2⟩
        · exact ih (j + 1) h2

theorem filter_ne_range'_length (s n r : Nat) :
    ((List.range' s n).filter (fun d => decide (d ≠ r))).length =
      if s ≤ r ∧ r < s + n then n - 1 else n := by
  induction n generalizing s with
  | zero => simp
  | succ n ih =>
    rw [List.range'_succ]
    by_cases h : s = r
    · subst h
      have h1 : ¬ (s + 1 ≤ s ∧ s < s + 1 + n) := by omega
      have h2 : s ≤ s ∧ s < s + (n + 1) := by omega
      rw [List.filter_cons, if_neg (by simp), ih, if_neg h1, if_pos h2]
      rfl
    · rw [List.filter_cons, if_pos (by simpa using h), List.length_cons, ih]
      by_cases h3 : s + 1 ≤ r ∧ r < s + 1 + n
      · have h4 : s ≤ r ∧ r < s + (n + 1) := by omega
        rw [if_pos h3, if_pos h4]
        omega
      · have h4 : ¬ (s ≤ r ∧ r < s + (n + 1)) := by omega
        rw [if_neg h3, if_neg h4]

theorem sum_indicator_range' (s n r c : Nat) :
    ((List.range' s n).map (fun i => if i = r then c else 0)).sum =
      if s ≤ r ∧ r < s + n then c else 0 := by
  induction n generalizing s with
  | zero =>
    rw [if_neg (by omega)]
    rfl
  | succ n ih =>
    rw [List.range'_succ, List.map_cons, List.sum_cons, ih]
    by_cases h : s = r
    · subst h
      have h1 : ¬ (s + 1 ≤ s ∧ s < s + 1 + n) := by omega
      have h2 : s ≤ s ∧ s < s + (n + 1) := by omega
      rw [if_pos rfl, if_neg h1, if_pos h2, Nat.add_zero]
    · rw [if_neg h]
      by_cases h3 : s + 1 ≤ r ∧ r < s + 1 + n
      · have h4 : s ≤ r ∧ r < s + (n + 1) := by omega
        rw [if_pos h3, if_pos h4]
        omega
      · have h4 : ¬ (s ≤ r ∧ r < s + (n + 1)) := by omega
        rw [if_neg h3, if_neg h4]

theorem shuffleRound_sends (lineSize N r : Nat) (tx : List (Option TxData)) (i : Nat) :
    sendDests (shuffleRound lineSize N r tx i) =
      if i = r then (List.range' 1 N).filter (fun d => decide (d ≠ i)) else [] := by
  unfold shuffleRound
  by_cases h : i = r
  · rw [if_pos h, if_pos h]
    have h1 := sendLoop_sendDests lineSize i tx N 1
    simp only [sendDests, List.filterMap_cons, List.filterMap_append] at h1 ⊢
    rw [h1]
    simp
  · rw [if_neg h, if_neg h]
    rfl

theorem mem_sendLoop_of_mem_round (lineSize N r : Nat) (tx : List (Option TxData)) (e : Event)
    (he : e ∈ shuffleRound lineSize N r tx r) (h1 : e ≠ Event.barrier) (h2 : e ≠ Event.sendStat) :
    e ∈ sendLoop lineSize r tx N 1 := by
  unfold shuffleRound at he
  rw [if_pos rfl] at he
  rcases List.mem_cons.mp he with h | h
  · exact absurd h h1
  · rcases List.mem_append.mp h with h | h
    · exact h
    · simp only [List.mem_cons, List.mem_singleton, List.not_mem_nil, or_false] at h
      rcases h with h | h | h
      · exact absurd h h1
      · exact absurd h h2
      · exact absurd h h2

/-- Claim C7: with workers ranked `1 .. N`, the shuffle loop runs `N` rounds on every
worker; in each round a worker passes exactly 2 barriers; in round `i` the worker `i`
sends the count and the payload of `partitionTxData[j - 1]` to every other worker `j` in
increasing order and receives nothing, and every other worker sends nothing and receives
once from `i`; over all workers there are `N * (N - 1)` transfers and no self-send. -/
theorem shuffle_round_count (lineSize N : Nat) (tx : Nat → List (Option TxData)) :
    (∀ r, 1 ≤ r → r ≤ N →
      (shuffleRounds lineSize N r (tx r)).length = N ∧
      ∀ i, 1 ≤ i → i ≤ N →
        (shuffleRounds lineSize N r (tx r))[i - 1]? = some (shuffleRound lineSize N r (tx r) i) ∧
        barrierCount (shuffleRound lineSize N r (tx r) i) = 2 ∧
        (r = i →
          sendDests (shuffleRound lineSize N r (tx r) i) =
            (List.range' 1 N).filter (fun d => decide (d ≠ i)) ∧
          countDests (shuffleRound lineSize N r (tx r) i) =
            (List.range' 1 N).filter (fun d => decide (d ≠ i)) ∧
          (sendDests (shuffleRound lineSize N r (tx r) i)).length = N - 1 ∧
          i ∉ sendDests (shuffleRound lineSize N r (tx r) i) ∧
          (∀ d data, Event.sendData d data ∈ shuffleRound lineSize N r (tx r) i →
            data = (txFor (tx r) d).data.take ((txFor (tx r) d).numLine * lineSize)) ∧
          (∀ d n, Event.sendNumLine d n ∈ shuffleRound lineSize N r (tx r) i →
            n = (txFor (tx r) d).numLine) ∧
          recvSrcs (shuffleRound lineSize N r (tx r) i) = [] ∧
          recvCountSrcs (shuffleRound lineSize N r (tx r) i) = []) ∧
        (r ≠ i →
          sendDests (shuffleRound lineSize N r (tx r) i) = [] ∧
          countDests (shuffleRound lineSize N r (tx r) i) = [] ∧
          recvCountSrcs (shuffleRound lineSize N r (tx r) i) = [i] ∧
          recvSrcs (shuffleRound lineSize N r (tx r) i) = [i])) ∧
      ((List.range' 1 N).map (fun r =>
        ((shuffleRounds lineSize N r (tx r)).map (fun es => (sendDests es).length)).sum)).sum =
        N * (N - 1) := by
  refine ⟨?_, ?_⟩
  · intro r hr1 hr2
    refine ⟨by simp [shuffleRounds], ?_⟩
    intro i hi1 hi2
    refine ⟨?_, ?_, ?_, ?_⟩
    · unfold shuffleRounds
      rw [List.getElem?_map, List.getElem?_range' 1 1 (by omega : i - 1 < N)]
      have e : 1 + 1 * (i - 1) = i := by omega
      rw [e]
      rfl
    · unfold shuffleRound
      by_cases h : i = r
      · rw [if_pos h]
        have h3 := (sendLoop_no_recv lineSize i (tx r) N 1).2.2
        simp only [barrierCount, List.count_cons, List.count_append] at h3 ⊢
        rw [h3]
        simp
      · rw [if_neg h]
        simp [barrierCount, List.count_cons]
    · intro hri
      subst hri
      have hs := shuffleRound_sends lineSize N r (tx r) r
      rw [if_pos rfl] at hs
      refine ⟨hs, ?_, ?_, ?_, ?_, ?_, ?_, ?_⟩
      · unfold shuffleRound
        rw [if_pos rfl]
        have h1 := sendLoop_countDests lineSize r (tx r) N 1
        simp only [countDests, List.filterMap_cons, List.filterMap_append] at h1 ⊢
        rw [h1]
        simp
      · rw [hs, filter_ne_range'_length, if_pos (by omega)]
      · rw [hs]
        simp
      · intro d data hmem
        obtain ⟨d2, _, h4 | h4⟩ := sendLoop_payload lineSize r (tx r) N 1 _
          (mem_sendLoop_of_mem_round lineSize N r (tx r) _ hmem (by simp) (by simp))
        · cases h4
        · cases h4
          rfl
      · intro d n hmem
        obtain ⟨d2, _, h4 | h4⟩ := sendLoop_payload lineSize r (tx r) N 1 _
          (mem_sendLoop_of_mem_round lineSize N r (tx r) _ hmem (by simp) (by simp))
        · cases h4
          rfl
        · cases h4
      · unfold shuffleRound
        rw [if_pos rfl]
        have h1 := (sendLoop_no_recv lineSize r (tx r) N 1).1
        simp only [recvSrcs, List.filterMap_cons, List.filterMap_append] at h1 ⊢
        rw [h1]
        simp
      · unfold shuffleRound
        rw [if_pos rfl]
        have h1 := (sendLoop_no_recv lineSize r (tx r) N 1).2.1
        simp only [recvCountSrcs, List.filterMap_cons, List.filterMap_append] at h1 ⊢
        rw [h1]
        simp
    · intro hri
      have hne : ¬ i = r := fun h => hri h.symm
      unfold shuffleRound
      rw [if_neg hne]
      exact ⟨rfl, rfl, rfl, rfl⟩
  · have hrow : ∀ r, r ∈ List.range' 1 N →
        ((shuffleRounds lineSize N r (tx r)).map (fun es => (sendDests es).length)).sum = N - 1 := by
      intro r hr
      rw [List.mem_range'_1] at hr
      unfold shuffleRounds
      rw [List.map_map]
      have hfun : ((fun es => (sendDests es).length) ∘ shuffleRound lineSize N r (tx r)) =
          fun i => if i = r then N - 1 else 0 := by
        funext i
        simp only [Function.comp]
        rw [shuffleRound_sends]
        by_cases h : i = r
        · rw [if_pos h, if_pos h, filter_ne_range'_length, if_pos (by omega)]
        · rw [if_neg h, if_neg h]
          rfl
      rw [hfun, sum_indicator_range', if_pos (by omega)]
    rw [List.map_congr_left hrow]
    simp

/-! ## Unpack after shuffle -/

theorem unpackData_packBucket (lineSize : Nat) (b : LineList)
    (h : ∀ r ∈ b, r.length = lineSize) : unpackData lineSize (packBucket lineSize b) = b := by
  unfold packBucket
  rw [packLines_eq_flatten lineSize b h]
  induction b with
  | nil => rfl
  | cons r rs ih =>
    have hr : r.length = lineSize := h r (List.mem_cons_self _ _)
    have ih2 := ih (fun x hx => h x (List.mem_cons_of_mem _ hx))
    unfold unpackData at ih2 ⊢
    simp only [List.length_cons, List.flatten_cons] at ih2 ⊢
    rw [List.range_succ_eq_map, List.map_cons, List.map_map]
    congr 1
    · rw [Nat.zero_mul, List.drop_zero, List.take_left' hr]
    · refine Eq.trans ?_ ih2
      apply List.map_congr_left
      intro lc _
      simp only [Function.comp, Nat.succ_eq_add_one]
      have e : (lc + 1) * lineSize = r.length + lc * lineSize := by
        rw [hr, Nat.add_mul, Nat.one_mul, Nat.add_comm]
      rw [e, List.drop_append]

theorem transfer_packBucket (lineSize : Nat) (b : LineList)
    (h : ∀ r ∈ b, r.length = lineSize) :
    transfer lineSize (packBucket lineSize b) = packBucket lineSize b := by
  unfold transfer packBucket
  simp only
  rw [List.take_of_length_le]
  rw [packLines_eq_flatten _ _ h, flatten_length_of_lines _ _ h]

theorem unpackLoop_eq (lineSize rank : Nat) (rx : List (Option TxData)) (n i : Nat) :
    unpackLoop lineSize rank rx n i =
      (((List.range' i n).filter (fun j => decide (j ≠ rank))).map
        (fun j => unpackData lineSize (txFor rx j))).flatten := by
  induction n generalizing i with
  | zero => rfl
  | succ n ih =>
    rw [unpackLoop, List.range'_succ, List.filter_cons]
    by_cases h : i = rank
    · rw [if_pos h, if_neg (by simpa using h), ih]
    · rw [if_neg h, if_pos (by simpa using h), ih]
      rfl

theorem txFor_shuffleRx (N rank : Nat) (net : Nat → TxData) (j : Nat) (h1 : 1 ≤ j)
    (h2 : j ≤ N) (h3 : j ≠ rank) : txFor (shuffleRx N rank net) j = net j := by
  unfold txFor shuffleRx
  rw [List.getD_eq_getElem?_getD, List.getElem?_map,
    List.getElem?_range' 1 1 (by omega : j - 1 < N)]
  have e : 1 + 1 * (j - 1) = j := by omega
  rw [e]
  simp [h3]

theorem txFor_packFrom (lineSize self : Nat) (pc : List LineList) (j : Nat) (h1 : 1 ≤ j)
    (h2 : j ≤ pc.length) (h3 : j - 1 ≠ self) :
    txFor (packFrom lineSize self 0 pc) j = packBucket lineSize (pc.getD (j - 1) []) := by
  unfold txFor
  rw [List.getD_eq_getElem?_getD, packFrom_get lineSize self 0 pc (j - 1) (by omega),
    Nat.zero_add, if_neg h3]
  rfl

theorem own_releaseFrom (self : Nat) (pc : List LineList) (h : self < pc.length) :
    ((releaseFrom self 0 pc).getD self none).getD [] = pc.getD self [] := by
  rw [List.getD_eq_getElem?_getD, releaseFrom_get self 0 pc self h, Nat.zero_add, if_pos rfl]
  rfl

theorem mapAll_spec (conf : Configuration) (pl : PartitionList) (scratch : Nat → Line)
    (files : List (Option (List Byte))) (n rank : Nat)
    (h : ∀ k, k < n → ∃ st,
      execMap conf (rank + k) pl (scratch (rank + k)) (files.getD (rank + k - 1) none) =
        some st) :
    ∃ states, mapAll conf pl scratch files n rank = some states ∧ states.length = n ∧
      ∀ k, k < n → ∃ st, states[k]? = some st ∧
        execMap conf (rank + k) pl (scratch (rank + k)) (files.getD (rank + k - 1) none) =
          some st := by
  induction n generalizing rank with
  | zero => exact ⟨[], by rw [mapAll], rfl, fun k hk => absurd hk (Nat.not_lt_zero k)⟩
  | succ n ih =>
    obtain ⟨st, hst⟩ := h 0 (Nat.succ_pos n)
    rw [Nat.add_zero] at hst
    obtain ⟨sts, g1, g2, g3⟩ := ih (rank + 1) (fun k hk => by
      have := h (k + 1) (by omega)
      have e : rank + 1 + k = rank + (k + 1) := by omega
      rw [e]
      exact this)
    refine ⟨st :: sts, by rw [mapAll, hst]; simp only [g1], by simp [g2], ?_⟩
    intro k hk
    cases k with
    | zero => exact ⟨st, by simp, by rw [Nat.add_zero]; exact hst⟩
    | succ k =>
      obtain ⟨st2, k1, k2⟩ := g3 k (by omega)
      have e : rank + 1 + k = rank + (k + 1) := by omega
      rw [e] at k2
      exact ⟨st2, by simpa using k1, k2⟩

theorem localListOf_eq (conf : Configuration) (pl : PartitionList) (scratch : Nat → Line)
    (shards : List (List Byte)) (wf : WellFormed conf pl)
    (hsc : ∀ r, (scratch r).length = conf.keySize) (hsh : shards.length = conf.numReducer) :
    ∃ states, mapAll conf pl scratch (shards.map some) conf.numReducer 1 = some states ∧
      states.length = conf.numReducer ∧
      ∀ r, 1 ≤ r → r ≤ conf.numReducer →
        localListOf conf states r =
          classifiedTo conf pl (scratch r) (shards.getD (r - 1) []) (r - 1) ++
            (((List.range' 1 conf.numReducer).filter (fun j => decide (j ≠ r))).map
              (fun j => classifiedTo conf pl (scratch j) (shards.getD (j - 1) [])
                (r - 1))).flatten := by
  have hfile : ∀ j, 1 ≤ j → j ≤ conf.numReducer →
      (shards.map some).getD (j - 1) none = some (shards.getD (j - 1) []) := by
    intro j h1 h2
    rw [List.getD_eq_getElem?_getD, List.getD_eq_getElem?_getD, List.getElem?_map,
      List.getElem?_eq_getElem (by omega : j - 1 < shards.length)]
    rfl
  have hexec : ∀ j, 1 ≤ j → j ≤ conf.numReducer → ∃ pc,
      execMap conf j pl (scratch j) ((shards.map some).getD (j - 1) none) =
        some { trie := (buildTrie pl 0 pl.length (scratch j) 0 2).1
               partitionCollection := releaseFrom (j - 1) 0 pc
               partitionTxData := packFrom conf.lineSize (j - 1) 0 pc } ∧
      pc.length = conf.numReducer ∧
      ∀ v, pc.getD v [] = classifiedTo conf pl (scratch j) (shards.getD (j - 1) []) v := by
    intro j h1 h2
    obtain ⟨pc, g1, g2, g3, _⟩ := execMapClassify_spec conf pl (scratch j) wf (hsc j)
      (shards.getD (j - 1) [])
    rw [hfile j h1 h2]
    exact ⟨pc, execMap_of_classify conf j pl (scratch j) _ _ pc g1, g2, g3⟩
  obtain ⟨states, h1, h2, h3⟩ := mapAll_spec conf pl scratch (shards.map some)
    conf.numReducer 1 (fun k hk => by
      obtain ⟨pc, g1, _⟩ := hexec (1 + k) (by omega) (by omega)
      exact ⟨_, g1⟩)
  have hstate : ∀ j, 1 ≤ j → j ≤ conf.numReducer → ∃ pc,
      states[j - 1]? = some { trie := (buildTrie pl 0 pl.length (scratch j) 0 2).1
                              partitionCollection := releaseFrom (j - 1) 0 pc
                              partitionTxData := packFrom conf.lineSize (j - 1) 0 pc } ∧
      pc.length = conf.numReducer ∧
      ∀ v, pc.getD v [] = classifiedTo conf pl (scratch j) (shards.getD (j - 1) []) v := by
    intro j hj1 hj2
    obtain ⟨st, k1, k2⟩ := h3 (j - 1) (by omega)
    have e : 1 + (j - 1) = j := by omega
    rw [e] at k2
    obtain ⟨pc, g1, g2, g3⟩ := hexec j hj1 hj2
    rw [g1] at k2
    cases k2
    exact ⟨pc, k1, g2, g3⟩
  refine ⟨states, h1, h2, ?_⟩
  intro r hr1 hr2
  obtain ⟨pc, g1, g2, g3⟩ := hstate r hr1 hr2
  unfold localListOf
  rw [g1]
  unfold unpack
  simp only
  have hown : ∀ x ∈ classifiedTo conf pl (scratch r) (shards.getD (r - 1) []) (r - 1),
      x.length = conf.lineSize := by
    intro x hx
    unfold classifiedTo at hx
    exact mem_shardLines_length _ _ _ x (List.mem_of_mem_filter hx)
  rw [own_releaseFrom (r - 1) pc (by omega), g3 (r - 1), unpackLoop_eq,
    map_take_eq_self _ _ hown]
  congr 2
  apply List.map_congr_left
  intro j hj
  rw [List.mem_filter, List.mem_range'_1] at hj
  obtain ⟨⟨hj1, hj2⟩, hj3⟩ := hj
  have hjr : j ≠ r := by simpa using hj3
  rw [txFor_shuffleRx conf.numReducer r _ j hj1 (by omega) hjr]
  obtain ⟨pcj, q1, q2, q3⟩ := hstate j hj1 (by omega)
  unfold delivered
  rw [q1]
  simp only
  have hlen : ∀ x ∈ classifiedTo conf pl (scratch j) (shards.getD (j - 1) []) (r - 1),
      x.length = conf.lineSize := by
    intro x hx
    unfold classifiedTo at hx
    exact mem_shardLines_length _ _ _ x (List.mem_of_mem_filter hx)
  rw [txFor_packFrom conf.lineSize (j - 1) pcj r hr1 (by omega) (by omega), q3 (r - 1),
    transfer_packBucket _ _ hlen]
  exact unpackData_packBucket _ _ hlen

/-! ## Claim C4: partitions and sort agree -/

theorem mem_localListOf_isRank (conf : Configuration) (pl : PartitionList)
    (scratch : Nat → Line) (shards : List (List Byte)) (wf : WellFormed conf pl)
    (hsc : ∀ r, (scratch r).length = conf.keySize) (r : Nat) (x : Line)
    (hx : x ∈ classifiedTo conf pl (scratch r) (shards.getD (r - 1) []) (r - 1) ++
      (((List.range' 1 conf.numReducer).filter (fun j => decide (j ≠ r))).map
        (fun j => classifiedTo conf pl (scratch j) (shards.getD (j - 1) []) (r - 1))).flatten) :
    IsRank pl conf.keySize x (r - 1) ∧ x.length = conf.lineSize := by
  have key : ∀ j bytes, x ∈ classifiedTo conf pl (scratch j) bytes (r - 1) →
      IsRank pl conf.keySize x (r - 1) ∧ x.length = conf.lineSize := by
    intro j bytes hmem
    unfold classifiedTo at hmem
    rw [List.mem_filter] at hmem
    have h1 := of_decide_eq_true hmem.2
    obtain ⟨w, h2, _, h4⟩ := execMap_find_total conf pl (scratch j) wf (hsc j) x
    rw [h1] at h2
    cases h2
    exact ⟨h4, mem_shardLines_length _ _ _ x hmem.1⟩
  rcases List.mem_append.mp hx with h | h
  · exact key r _ h
  · rw [List.mem_flatten] at h
    obtain ⟨l, hl, hxl⟩ := h
    rw [List.mem_map] at hl
    obtain ⟨j, _, hj⟩ := hl
    rw [← hj] at hxl
    exact key j _ hxl

theorem execReduce_isSortResult (conf : Configuration) (l : LineList) :
    IsSortResult conf.keySize l (execReduce conf l) := by
  haveI : IsTotal Line (keyLE conf.keySize) := ⟨fun a b => by
    unfold keyLE
    cases h : cmpKey b a conf.keySize with
    | false => exact Or.inl rfl
    | true => exact Or.inr (cmpKey_asymm h)⟩
  haveI : IsTrans Line (keyLE conf.keySize) := ⟨fun a b c hab hbc => cmpKey_le_trans hab hbc⟩
  exact ⟨List.perm_insertionSort _ _, List.sorted_insertionSort _ _⟩

/-- Claim C4: for a well-formed job (boundaries sorted ascending) and any input shards,
the full run completes, and in any outputs `std::sort` may produce from the working lists
(a sorted permutation of each, as `execReduce` computes) every key of the output of
partition `p` is strictly below every key of the output of partition `q` whenever
`p < q`, so the outputs concatenated in partition order are sorted by key; the files
`outputLocalList` writes hold these records one after the other. -/
theorem outputs_sorted_across_partitions (conf : Configuration) (pl : PartitionList)
    (scratch : Nat → Line) (shards : List (List Byte)) (wf : WellFormed conf pl)
    (hsc : ∀ r, (scratch r).length = conf.keySize) (hsh : shards.length = conf.numReducer) :
    ∃ lists, runUnpacked conf pl scratch (shards.map some) = some lists ∧
      lists.length = conf.numReducer ∧
      runSorted conf pl scratch (shards.map some) = some (lists.map (execReduce conf)) ∧
      List.Forall₂ (IsSortResult conf.keySize) lists (lists.map (execReduce conf)) ∧
      ∀ outs, List.Forall₂ (IsSortResult conf.keySize) lists outs →
        (∀ p q (hp : p < outs.length) (hq : q < outs.length), p < q →
          ∀ a ∈ outs[p], ∀ b ∈ outs[q], cmpKey a b conf.keySize = true) ∧
        outs.flatten.Pairwise (keyLE conf.keySize) ∧
        outs.map (outputLocalList conf) = outs.map List.flatten := by
  obtain ⟨states, h1, _, h3⟩ := localListOf_eq conf pl scratch shards wf hsc hsh
  have hrun : runUnpacked conf pl scratch (shards.map some) =
      some ((List.range' 1 conf.numReducer).map (localListOf conf states)) := by
    unfold runUnpacked
    simp only [h1]
  refine ⟨_, hrun, by simp, by unfold runSorted; simp only [hrun], ?_, ?_⟩
  · rw [List.forall₂_map_right_iff, List.forall₂_same]
    intro l _
    exact execReduce_isSortResult conf l
  · intro outs hf
    rw [List.forall₂_iff_get] at hf
    obtain ⟨hlen, hget⟩ := hf
    have hlen2 : outs.length = conf.numReducer := by
      rw [← hlen]
      simp
    have hrank : ∀ i (hi : i < outs.length), ∀ x ∈ outs[i],
        IsRank pl conf.keySize x i ∧ x.length = conf.lineSize := by
      intro i hi x hx
      have hi2 : i < ((List.range' 1 conf.numReducer).map (localListOf conf states)).length :=
        by rw [hlen]; exact hi
      have hperm := (hget i hi2 hi).1
      simp only [List.get_eq_getElem, List.getElem_map, List.getElem_range'] at hperm
      have hx2 := hperm.mem_iff.mp hx
      rw [h3 (1 + 1 * i) (by omega) (by omega)] at hx2
      have := mem_localListOf_isRank conf pl scratch shards wf hsc (1 + 1 * i) x hx2
      have e : 1 + 1 * i - 1 = i := by omega
      rw [e] at this
      exact this
    have hlt : ∀ p q (hp : p < outs.length) (hq : q < outs.length), p < q →
        ∀ a ∈ outs[p], ∀ b ∈ outs[q], cmpKey a b conf.keySize = true := by
      intro p q hp hq hpq a ha b hb
      exact isRank_lt pl conf.keySize a b p q (hrank p hp a ha).1 (hrank q hq b hb).1 hpq
    refine ⟨hlt, ?_, ?_⟩
    swap
    · apply List.map_congr_left
      intro out hout
      obtain ⟨i, hi, hio⟩ := List.getElem_of_mem hout
      unfold outputLocalList
      apply packLines_eq_flatten
      intro x hx
      rw [← hio] at hx
      exact (hrank i hi x hx).2
    rw [List.pairwise_flatten]
    refine ⟨?_, ?_⟩
    · intro l hl
      obtain ⟨i, hi, hil⟩ := List.getElem_of_mem hl
      have hi2 : i < ((List.range' 1 conf.numReducer).map (localListOf conf states)).length :=
        by rw [hlen]; exact hi
      have := (hget i hi2 hi).2
      rw [List.get_eq_getElem, hil] at this
      exact this
    · rw [List.pairwise_iff_getElem]
      intro i j hi hj hij x hx y hy
      exact cmpKey_asymm (hlt i j hi hj hij x hx y hy)

theorem outputs_sorted_across_partitions_witness :
    WellFormed { numReducer := 2, keySize := 2, lineSize := 3 } [[77, 0, 0]] ∧
      ∃ lists, runUnpacked { numReducer := 2, keySize := 2, lineSize := 3 } [[77, 0, 0]]
          (fun _ => [0, 0])
          (([[90, 1, 1, 65, 2, 2], [77, 0, 3, 78, 0, 4]] : List (List Byte)).map some) =
          some lists ∧
        List.length lists = 2 :=
  ⟨⟨by decide, by decide, by decide, by decide, by decide, by decide⟩, by
    obtain ⟨lists, h1, h2, _⟩ := outputs_sorted_across_partitions
      { numReducer := 2, keySize := 2, lineSize := 3 } [[77, 0, 0]] (fun _ => [0, 0])
      [[90, 1, 1, 65, 2, 2], [77, 0, 3, 78, 0, 4]]
      ⟨by decide, by decide, by decide, by decide, by decide, by decide⟩ (fun _ => rfl) rfl
    exact ⟨lists, h1, h2⟩⟩

/-! ## Claim C3: conservation -/

theorem perm_cons_filter_ne (l : List Nat) (r : Nat) (hr : r ∈ l) (hl : l.Nodup) :
    l.Perm (r :: l.filter (fun j => decide (j ≠ r))) := by
  have h1 := List.perm_cons_erase hr
  rw [hl.erase_eq_filter r] at h1
  have h2 : List.filter (fun x => x != r) l = l.filter (fun j => decide (j ≠ r)) := by
    apply List.filter_congr
    intro x _
    by_cases hx : x = r
    · simp [hx]
    · simp [hx]
  rw [h2] at h1
  exact h1

theorem flatten_map_perm_congr {α : Type} (l : List α) (f g : α → LineList)
    (h : ∀ x ∈ l, (f x).Perm (g x)) : (l.map f).flatten.Perm (l.map g).flatten := by
  induction l with
  | nil => exact List.Perm.refl _
  | cons a l ih =>
    simp only [List.map_cons, List.flatten_cons]
    exact List.Perm.append (h a (List.mem_cons_self _ _))
      (ih (fun x hx => h x (List.mem_cons_of_mem _ hx)))

theorem flatten_map_append_perm {α : Type} (l : List α) (g h : α → LineList) :
    (l.map (fun j => g j ++ h j)).flatten.Perm ((l.map g).flatten ++ (l.map h).flatten) := by
  induction l with
  | nil => exact List.Perm.refl _
  | cons a l ih =>
    simp only [List.map_cons, List.flatten_cons, List.append_assoc]
    refine List.Perm.append_left (g a) ?_
    refine (List.Perm.append_left (h a) ih).trans ?_
    exact List.perm_append_comm_assoc _ _ _

theorem flatten_swap (l1 l2 : List Nat) (f : Nat → Nat → LineList) :
    (l1.map (fun r => (l2.map (fun j => f j r)).flatten)).flatten.Perm
      (l2.map (fun j => (l1.map (fun r => f j r)).flatten)).flatten := by
  induction l1 with
  | nil =>
    simp only [List.map_nil, List.flatten_nil]
    have : (l2.map (fun _ => ([] : LineList))).flatten = [] := by
      induction l2 with
      | nil => rfl
      | cons a l ih =>
        rw [List.map_cons, List.flatten_cons, ih]
        rfl
    rw [this]
  | cons a l1 ih =>
    simp only [List.map_cons, List.flatten_cons]
    refine (List.Perm.append_left _ ih).trans ?_
    exact (flatten_map_append_perm l2 (fun j => f j a)
      (fun j => (l1.map (fun r => f j r)).flatten)).symm

theorem classifiedTo_flatten_perm (conf : Configuration) (pl : PartitionList) (scratch : Line)
    (wf : WellFormed conf pl) (hsc : scratch.length = conf.keySize) (bytes : List Byte) :
    ((List.range' 1 conf.numReducer).map
        (fun r => classifiedTo conf pl scratch bytes (r - 1))).flatten.Perm
      (shardLines bytes conf.lineSize (shardNumLine bytes.length conf.lineSize)) := by
  obtain ⟨pc, _, h2, h3, h4⟩ := execMapClassify_spec conf pl scratch wf hsc bytes
  have h5 : (List.range' 1 conf.numReducer).map
      (fun r => classifiedTo conf pl scratch bytes (r - 1)) = pc := by
    apply List.ext_getElem
    · simp [h2]
    · intro i hi1 hi2
      simp only [List.getElem_map, List.getElem_range']
      have e : 1 + 1 * i - 1 = i := by omega
      rw [e]
      have h6 := h3 i
      unfold classifiedTo
      rw [← h6, List.getD_eq_getElem _ _ hi2]
  rw [h5]
  exact h4

/-- Conservation for shards the `int` of `execMap` can hold: for a well-formed job whose
shards have less than `2^31` bytes, the working lists after classify, pack, shuffle and
unpack hold, up to order, exactly the whole records of the shards. -/
theorem conservation_below_2GiB (conf : Configuration) (pl : PartitionList)
    (scratch : Nat → Line) (shards : List (List Byte)) (wf : WellFormed conf pl)
    (hsc : ∀ r, (scratch r).length = conf.keySize) (hsh : shards.length = conf.numReducer)
    (hsize : ∀ b ∈ shards, b.length < 2147483648) :
    ∃ lists, runUnpacked conf pl scratch (shards.map some) = some lists ∧
      lists.flatten.Perm
        (shards.map (fun b => (List.range (b.length / conf.lineSize)).map
          (fun i => (b.drop (i * conf.lineSize)).take conf.lineSize))).flatten := by
  obtain ⟨states, h1, _, h3⟩ := localListOf_eq conf pl scratch shards wf hsc hsh
  have hrun : runUnpacked conf pl scratch (shards.map some) =
      some ((List.range' 1 conf.numReducer).map (localListOf conf states)) := by
    unfold runUnpacked
    simp only [h1]
  refine ⟨_, hrun, ?_⟩
  have step1 : ((List.range' 1 conf.numReducer).map (localListOf conf states)).flatten.Perm
      ((List.range' 1 conf.numReducer).map (fun r =>
        ((List.range' 1 conf.numReducer).map (fun j =>
          classifiedTo conf pl (scratch j) (shards.getD (j - 1) []) (r - 1))).flatten)).flatten := by
    apply flatten_map_perm_congr
    intro r hr
    have hr2 := List.mem_range'_1.mp hr
    rw [h3 r hr2.1 (by omega)]
    have hp := perm_cons_filter_ne (List.range' 1 conf.numReducer) r hr
      (List.nodup_range' 1 conf.numReducer)
    have hp2 := (hp.map (fun j =>
      classifiedTo conf pl (scratch j) (shards.getD (j - 1) []) (r - 1))).flatten
    simp only [List.map_cons, List.flatten_cons] at hp2
    exact hp2.symm
  refine step1.trans ((flatten_swap _ _ _).trans ?_)
  have step3 : ((List.range' 1 conf.numReducer).map (fun j =>
      ((List.range' 1 conf.numReducer).map (fun r =>
        classifiedTo conf pl (scratch j) (shards.getD (j - 1) []) (r - 1))).flatten)).flatten.Perm
      ((List.range' 1 conf.numReducer).map (fun j =>
        (List.range ((shards.getD (j - 1) []).length / conf.lineSize)).map
          (fun i => ((shards.getD (j - 1) []).drop (i * conf.lineSize)).take
            conf.lineSize))).flatten := by
    apply flatten_map_perm_congr
    intro j hj
    have hj2 := List.mem_range'_1.mp hj
    have hb : shards.getD (j - 1) [] ∈ shards := by
      rw [List.getD_eq_getElem _ _ (by omega : j - 1 < shards.length)]
      exact List.getElem_mem _
    rw [← shardLines_of_lt _ _ (hsize _ hb)]
    exact classifiedTo_flatten_perm conf pl (scratch j) wf (hsc j) _
  refine step3.trans ?_
  have hmap : (List.range' 1 conf.numReducer).map (fun j =>
      (List.range ((shards.getD (j - 1) []).length / conf.lineSize)).map
        (fun i => ((shards.getD (j - 1) []).drop (i * conf.lineSize)).take conf.lineSize)) =
      shards.map (fun b => (List.range (b.length / conf.lineSize)).map
        (fun i => (b.drop (i * conf.lineSize)).take conf.lineSize)) := by
    apply List.ext_getElem
    · simp [hsh]
    · intro i hi1 hi2
      simp only [List.getElem_map, List.getElem_range']
      have e : 1 + 1 * i - 1 = i := by omega
      have hi3 : i < shards.length := by simpa using hi2
      rw [e, List.getD_eq_getElem _ _ hi3]
  rw [hmap]

theorem runUnpacked_numLine_zero (sc : Nat → Line) (bytes : List Byte)
    (h : shardNumLine bytes.length 100 = 0) :
    runUnpacked { numReducer := 1, keySize := 10, lineSize := 100 } [] sc [some bytes] =
      some [[]] := by
  have hc := execMapClassify_numLine_zero { numReducer := 1, keySize := 10, lineSize := 100 }
    [] (sc 1) bytes h
  have he := execMap_of_classify { numReducer := 1, keySize := 10, lineSize := 100 } 1 []
    (sc 1) (some bytes) _ _ hc
  have hm : mapAll { numReducer := 1, keySize := 10, lineSize := 100 } [] sc [some bytes] 1 1 =
      some [{ trie := (buildTrie [] 0 ([] : PartitionList).length (sc 1) 0 2).1
              partitionCollection := releaseFrom (1 - 1) 0 (List.replicate 1 [])
              partitionTxData := packFrom 100 (1 - 1) 0 (List.replicate 1 []) }] := by
    rw [mapAll]
    have hf : ([some bytes] : List (Option (List Byte))).getD (1 - 1) none = some bytes := rfl
    rw [hf, he]
    simp only [mapAll]
  unfold runUnpacked
  simp only [hm]
  rfl

/-- Claim C3, at the failing input: one worker, no boundary, records of 100 bytes and a
shard of 4294967300 bytes, that is 42949673 whole records. The run completes with an
empty working list: every record of the shard is lost. -/
theorem records_lost_on_4GiB_shard :
    4294967300 % 100 = 0 ∧ 4294967300 / 100 = 42949673 ∧
      (List.replicate 4294967300 (0 : Byte)).length = 4294967300 ∧
      runUnpacked { numReducer := 1, keySize := 10, lineSize := 100 } []
        (fun _ => List.replicate 10 0) [some (List.replicate 4294967300 0)] = some [[]] := by
  refine ⟨by decide, by decide, List.length_replicate _ _, ?_⟩
  apply runUnpacked_numLine_zero
  rw [List.length_replicate]
  decide

end TeraSort
